import Mathlib

/-!
Verification of the transaction synchronization and deduplication engine of
the mercury-bot repository: a shallow embedding, in Lean 4, of

  * the durable transaction store (SQLite table keyed by transaction id;
    functions upsert_transactions, get_max_createdAt,
    get_cached_transactions_for_month in main.py),
  * the paginated upstream fetch loop (fetch_all_tx_for_account in main.py,
    duplicated verbatim in enhanced_mercury_api.py),
  * the synchronization engine (initial_sync_all_accounts, incremental_sync
    in main.py), and
  * the change-detection / notification feed (TransactionMonitor in
    transaction_monitor.py: check_for_new_transactions,
    send_transaction_notifications, should_notify_transaction,
    can_notify_vendor, get_vendor_name),

followed by theorems settling the spec claims about these components.

Modelling conventions:
  * Python dict fields that may be absent are Option-valued; dict.get(k)
    becomes the Option value, dict.get(k, d) becomes Option.getD.
  * Python truthiness of strings (None and the empty string are falsy, as in
    the or-fallback chains and the "if not account_id" guards) is modelled
    explicitly wherever the source relies on it.
  * Timestamps are the ISO-8601 strings the upstream serves, compared
    lexicographically: this is exactly what SQLite MAX / range comparisons on
    the TEXT column createdAt and what the Python < on str do.
  * Monetary amounts are modelled as integers; none of the verified claims
    depend on fractional amounts.
  * Wall-clock instants (datetime.now().timestamp()) are integer parameters.
  * The unbounded while-True page loop is modelled with explicit fuel; the
    theorems show the result is reached (and stable) once the fuel exceeds
    the length of the upstream list.
-/

namespace MercuryBot

/-! ## Generic helpers -/

/-- Python truthiness of an optional string: None and the empty string are
falsy. -/
def truthyStr (o : Option String) : Bool :=
  match o with
  | none => false
  | some s => decide (s ≠ "")

/-- The Python expression a or b on optional strings, where a falsy value
(absent or empty) falls through to b and b is returned unfiltered. -/
def orElseStr (a b : Option String) : Option String :=
  match a with
  | none => b
  | some s => if s = "" then b else some s

/-- needle is a prefix of hay (on lists of characters). -/
def listHasPre : List Char → List Char → Bool
  | [], _ => true
  | _ :: _, [] => false
  | a :: as, b :: bs => decide (a = b) && listHasPre as bs

/-- needle occurs as a contiguous sublist of hay. -/
def listHasSub (needle : List Char) : List Char → Bool
  | [] => listHasPre needle []
  | b :: bs => listHasPre needle (b :: bs) || listHasSub needle bs

/-- The Python expression needle in hay on strings (substring test). -/
def strContains (hay needle : String) : Bool :=
  listHasSub needle.toList hay.toList

/-- Strict lexicographic comparison of character lists, the order SQLite
uses on TEXT values and Python uses on str values. -/
def charListLt : List Char → List Char → Bool
  | [], [] => false
  | [], _ :: _ => true
  | _ :: _, [] => false
  | a :: as, b :: bs =>
      if a < b then true else if b < a then false else charListLt as bs

/-- Strict string comparison (Python <, SQLite TEXT <). -/
def strLtB (a b : String) : Bool := charListLt a.toList b.toList

/-- Non-strict string comparison (Python <=, SQLite TEXT <=, >=). -/
def strLeB (a b : String) : Bool := !(strLtB b a)

/-- The larger of two strings, as SQL MAX accumulates it. -/
def strMaxB (m c : String) : String := if strLtB m c then c else m

/-- ASCII lower-casing of one character, as Python str.lower() acts on the
ASCII strings this system compares ("credit", "debit", category and vendor
names). -/
def charLower (c : Char) : Char :=
  if 'A' ≤ c ∧ c ≤ 'Z' then Char.ofNat (c.toNat + 32) else c

/-- Python str.lower() restricted to ASCII content. -/
def strLower (s : String) : String := String.mk (s.toList.map charLower)

/-- Zero-pad a natural number to (at least) two digits, as Python "%02d". -/
def pad2 (n : Nat) : String :=
  if n < 10 then "0" ++ toString n else toString n

/-- Zero-pad a natural number to (at least) four digits, as Python "%04d". -/
def pad4 (n : Nat) : String :=
  if n < 10 then "000" ++ toString n
  else if n < 100 then "00" ++ toString n
  else if n < 1000 then "0" ++ toString n
  else toString n

/-! ## Data model

Upstream transaction records are JSON dicts; the fields the engine reads are
modelled as optional values. The two fields account_name and account_type are
written into the dict by the notification feed when it tags a detected
transaction; account_id is written by the pagination loop. -/

structure CardDetails where
  merchantName : Option String := none
deriving DecidableEq, Repr

structure RawTx where
  id : Option String := none
  createdAt : Option String := none
  amount : Option Int := none
  kind : Option String := none
  merchantName : Option String := none
  counterpartyName : Option String := none
  bankDescription : Option String := none
  cardDetails : Option CardDetails := none
  description : Option String := none
  mercuryCategory : Option String := none
  account_id : Option String := none
  account_name : Option String := none
  account_type : Option String := none
deriving DecidableEq, Repr

/-- An account dict as served by the accounts / credit endpoints (only the
fields the monitor reads). -/
structure Account where
  id : Option String := none
  name : Option String := none
  nickname : Option String := none
deriving DecidableEq, Repr

/-- One row of the SQLite transactions table. The table is declared
  id TEXT PRIMARY KEY, with no NOT NULL: by documented SQLite behaviour a
NULL id is admitted and distinct NULLs never collide, so every column is
Option-valued, including the primary key. -/
structure Row where
  id : Option String := none
  account_id : Option String := none
  createdAt : Option String := none
  amount : Option Int := none
  kind : Option String := none
  vendorName : Option String := none
  counterpartyName : Option String := none
  bankDescription : Option String := none
  mercuryCategory : Option String := none
deriving DecidableEq, Repr

/-! ## Durable transaction store (main.py)

The store is modelled as the list of table rows in rowid order. -/

/-- One INSERT OR REPLACE of a row keyed by id (main.py, upsert_transactions
inner loop). With a non-NULL id, SQLite deletes any row carrying that id and
appends the new row; with a NULL id no uniqueness conflict is possible
(SQLite treats NULLs in a TEXT PRIMARY KEY as pairwise distinct) and the row
is simply appended. -/
def upsert_one (store : List Row) (r : Row) : List Row :=
  match r.id with
  | none => store ++ [r]
  | some i => store.filter (fun q => decide (q.id ≠ some i)) ++ [r]

/-- main.py upsert_transactions: INSERT OR REPLACE each dict of the batch in
order. The Python source splits the batch into chunks of 500 rows purely to
bound executor latency; the chunks are processed sequentially in order, so
the net effect equals a single left fold. -/
def upsert_transactions (store : List Row) (batch : List Row) : List Row :=
  batch.foldl upsert_one store

/-- One accumulation step of SQL MAX over the createdAt column: NULLs are
ignored, non-NULL values are folded with the larger-of operation. -/
def maxStep (acc : Option String) (r : Row) : Option String :=
  match r.createdAt, acc with
  | none, a => a
  | some c, none => some c
  | some c, some m => some (strMaxB m c)

/-- main.py get_max_createdAt: SELECT MAX(createdAt) FROM transactions.
SQL MAX ignores NULLs and yields NULL when no non-NULL value exists; on the
TEXT column the comparison is lexicographic byte order. -/
def get_max_createdAt (store : List Row) : Option String :=
  store.foldl maxStep none

/-- The first instant of a month as the store renders it:
"YYYY-MM-01T00:00:00+00:00" (main.py get_cached_transactions_for_month). -/
def monthStart (year month : Nat) : String :=
  pad4 year ++ "-" ++ pad2 month ++ "-01T00:00:00+00:00"

/-- The exclusive upper bound used by the month query: the first instant of
the following month, rolling December into January of the next year. -/
def monthEnd (year month : Nat) : String :=
  if month = 12 then monthStart (year + 1) 1 else monthStart year (month + 1)

/-- Row ordering key used by ORDER BY createdAt ASC. Every selected row has
a non-NULL createdAt (NULL comparisons in the WHERE clause are not true), so
the default is never reached on selected rows. -/
def rowKey (r : Row) : String := r.createdAt.getD ""

/-- The comparison ORDER BY createdAt ASC sorts by. -/
abbrev rowLe (a b : Row) : Prop := strLeB (rowKey a) (rowKey b) = true

instance : DecidableRel rowLe := fun a b =>
  inferInstanceAs (Decidable (strLeB (rowKey a) (rowKey b) = true))

/-- The WHERE clause of the month query: createdAt >= start AND
createdAt < end. A NULL createdAt fails both SQL comparisons. -/
def inMonthWindow (year month : Nat) (r : Row) : Bool :=
  match r.createdAt with
  | none => false
  | some c => strLeB (monthStart year month) c && strLtB c (monthEnd year month)

/-- main.py get_cached_transactions_for_month: rows with
start <= createdAt < end, ordered by createdAt ascending. -/
def get_cached_transactions_for_month (store : List Row) (year month : Nat) :
    List Row :=
  List.insertionSort rowLe (store.filter (inMonthWindow year month))

/-! ## Vendor derivation

Two distinct derivations exist in the source:
  * transaction_monitor.py get_vendor_name: merchantName or counterpartyName
    or bankDescription or cardDetails.merchantName or "Unknown Vendor";
  * main.py initial_sync_all_accounts / incremental_sync inline vendor_name:
    merchantName or counterpartyName or bankDescription or
    cardDetails.merchantName or description.
Both are instances of the same four-field chain with a different last
element. -/

/-- The Python expression (tx.get("cardDetails") or empty).get("merchantName"). -/
def cardMerchant (tx : RawTx) : Option String :=
  match tx.cardDetails with
  | none => none
  | some cd => cd.merchantName

/-- The shared fallback chain merchantName or counterpartyName or
bankDescription or cardDetails.merchantName or tail, where tail is the final
(unfiltered) element of the Python or-chain. -/
def vendorChain (tx : RawTx) (tail : Option String) : Option String :=
  orElseStr tx.merchantName
    (orElseStr tx.counterpartyName
      (orElseStr tx.bankDescription
        (orElseStr (cardMerchant tx) tail)))

/-- transaction_monitor.py get_vendor_name. The chain ends in the truthy
literal "Unknown Vendor", so the result is always present; getD is a
formality. -/
def get_vendor_name (tx : RawTx) : String :=
  (vendorChain tx (some "Unknown Vendor")).getD "Unknown Vendor"

/-- The inline vendor_name computation of main.py initial_sync_all_accounts
and incremental_sync (they are textually identical). The chain ends in
tx.get("description") and can therefore produce None. -/
def sync_vendor_name (tx : RawTx) : Option String :=
  vendorChain tx tx.description

/-- The normalized row built by initial_sync_all_accounts and
incremental_sync for one fetched record. The source indexes tx["id"]
(presence of the id is a precondition there; the sync theorems carry it as a
hypothesis), reads the other fields with .get, and lower-cases kind via
tx.get("kind", "").lower(). -/
def normalize_tx (acct_id : String) (tx : RawTx) : Row :=
  { id := tx.id
    account_id := some acct_id
    createdAt := tx.createdAt
    amount := tx.amount
    kind := some (strLower (tx.kind.getD ""))
    vendorName := sync_vendor_name tx
    counterpartyName := tx.counterpartyName
    bankDescription := tx.bankDescription
    mercuryCategory := tx.mercuryCategory }

/-! ## Upstream transaction source and the pagination loop

The synthetic upstream source of the spec: one account holds a known finite
list M of transaction records, served newest-first (reverse-chronological),
in pages of 100. A page request optionally carries a before cursor, the id
of the last record of the previous page; the served page is the chunk that
follows the record carrying that id. This is the source model of spec
section 4.1 / testable property 2, in which pages simply split the list (a
page may cross below the requested after bound; the client loop is the
component responsible for stopping there). -/

/-- The part of the source list strictly after the record whose id equals
the cursor (everything, for no cursor; empty if the cursor id is unknown). -/
def pageAfterCursor (M : List RawTx) : Option String → List RawTx
  | none => M
  | some c => (M.dropWhile (fun r => decide (r.id ≠ some c))).drop 1

/-- One served page: the next (up to) 100 records after the cursor. -/
def servePage (M : List RawTx) (cursor : Option String) : List RawTx :=
  (pageAfterCursor M cursor).take 100

/-- The pagination loop writes tx["account_id"] = acc_id on every collected
record. -/
def tagAccount (acc : String) (r : RawTx) : RawTx :=
  { r with account_id := some acc }

/-- The boundary test of the loop, Python:
  if aft and batch[-1]["createdAt"] < aft: break.
Result none models the uncaught KeyError raised when the last record of a
page has no createdAt (only evaluated when aft is truthy); some true means
break, some false means keep paging. -/
def stopTs (aft : Option String) (lastTx : RawTx) : Option Bool :=
  match aft with
  | none => some false
  | some a =>
      if a = "" then some false
      else
        match lastTx.createdAt with
        | none => none
        | some c => some (strLtB c a)

/-- The while-True body of fetch_all_tx_for_account (main.py), with explicit
fuel standing for the number of remaining iterations. Returns none when the
fuel runs out (the loop did not terminate within the budget) or on the
KeyError of stopTs; otherwise the collected, account-tagged records.
An empty page breaks the loop; after a non-empty page the whole page has
already been appended, then the boundary test may break, then a falsy next
cursor batch[-1].get("id") - a missing or empty-string id - breaks. -/
def fetch_loop (M : List RawTx) (aft : Option String) (acc : String) :
    Nat → Option String → Option (List RawTx)
  | 0, _ => none
  | fuel + 1, cursor =>
      let batch := servePage M cursor
      match batch.getLast? with
      | none => some []
      | some lastTx =>
          let collected := batch.map (tagAccount acc)
          match stopTs aft lastTx with
          | none => none
          | some true => some collected
          | some false =>
              match lastTx.id with
              | none => some collected
              | some cid =>
                  if cid = "" then some collected
                  else
                    (fetch_loop M aft acc fuel (some cid)).map
                      (fun rest => collected ++ rest)

/-- main.py fetch_all_tx_for_account run against the synthetic source M,
with enough fuel for the loop to visit every record. -/
def fetch_all_tx_for_account (M : List RawTx) (aft : Option String)
    (acc : String) : Option (List RawTx) :=
  fetch_loop M aft acc (M.length + 1) none

/-! ## Synchronization engine (main.py)

An upstream universe is a list of accounts, each an account id paired with
its reverse-chronological transaction list. Accounts whose id is falsy are
skipped by the source (if not acct_id: continue) and are omitted from the
model. A none result propagates a crash of the pagination model. -/

/-- main.py initial_sync_all_accounts (the store-writing core): for every
account fetch the full history (after=None), normalize, upsert. -/
def initial_sync_all_accounts (upstream : List (String × List RawTx))
    (store : List Row) : Option (List Row) :=
  upstream.foldlM
    (fun st p =>
      (fetch_all_tx_for_account p.2 none p.1).map
        (fun txs => upsert_transactions st (txs.map (normalize_tx p.1))))
    store

/-- main.py incremental_sync: read the watermark, fetch every account with
after=watermark, normalize, upsert. -/
def incremental_sync (upstream : List (String × List RawTx))
    (store : List Row) : Option (List Row) :=
  upstream.foldlM
    (fun st p =>
      (fetch_all_tx_for_account p.2 (get_max_createdAt store) p.1).map
        (fun txs => upsert_transactions st (txs.map (normalize_tx p.1))))
    store

/-! ## Change-detection / notification feed (transaction_monitor.py) -/

/-- Notification settings (transaction_monitor.py, notification_settings
dict). -/
structure NotificationSettings where
  enabled : Bool := true
  min_amount : Int := 0
  include_credits : Bool := true
  include_debits : Bool := true
  exclude_categories : List String := []
  exclude_vendors : List String := []
  notification_cooldown : Int := 300
deriving DecidableEq, Repr

/-- account.get("name", account.get("nickname", "Unknown")). -/
def accountName (a : Account) : String :=
  a.name.getD (a.nickname.getD "Unknown")

/-- The inner loop of check_for_new_transactions over the fetched records of
one account: a record whose id is already in the seen-set is skipped; otherwise
its id is added to the seen-set and the record, tagged with account_name and
account_type, is collected as a notification candidate. -/
def detect_txs (seen : Finset (Option String)) (name : String)
    (isCredit : Bool) : List RawTx → Finset (Option String) × List RawTx
  | [] => (seen, [])
  | tx :: rest =>
      if tx.id ∈ seen then detect_txs seen name isCredit rest
      else
        let tagged := { tx with
          account_name := some name
          account_type := some (if isCredit then "credit" else "core") }
        let out := detect_txs (insert tx.id seen) name isCredit rest
        (out.1, tagged :: out.2)

/-- The account loop of check_for_new_transactions: all_accounts is
core ++ credit; an account with a falsy id is skipped (after its display
name is computed); the account-type tag is "credit" exactly when the account
dict occurs in the credit pool. Each account is paired with the records the
5-minute window fetch returned for it. -/
def detect_accounts (seen : Finset (Option String))
    (creditAccts : List Account) :
    List (Account × List RawTx) → Finset (Option String) × List RawTx
  | [] => (seen, [])
  | (a, txs) :: rest =>
      if a.id.getD "" = "" then detect_accounts seen creditAccts rest
      else
        let one := detect_txs seen (accountName a)
          (decide (a ∈ creditAccts)) txs
        let more := detect_accounts one.1 creditAccts rest
        (more.1, one.2 ++ more.2)

/-- transaction_monitor.py should_notify_transaction. -/
def should_notify_transaction (s : NotificationSettings) (tx : RawTx) : Bool :=
  if !s.enabled then false
  else if |tx.amount.getD 0| < s.min_amount then false
  else
    let kind := strLower (tx.kind.getD "")
    if strContains kind "credit" && !s.include_credits then false
    else if strContains kind "debit" && !s.include_debits then false
    else if (s.exclude_categories.map strLower).contains
        (strLower (tx.mercuryCategory.getD "")) then false
    else if (s.exclude_vendors.map strLower).contains
        (strLower (get_vendor_name tx)) then false
    else true

/-- The last-notification-time dict, vendor name to wall-clock seconds. -/
def lookupTime (m : List (String × Int)) (v : String) : Option Int :=
  (m.find? (fun p => decide (p.1 = v))).map (fun p => p.2)

/-- Python dict assignment m[v] = t. -/
def setTime (m : List (String × Int)) (v : String) (t : Int) :
    List (String × Int) :=
  (v, t) :: m.filter (fun p => decide (p.1 ≠ v))

/-- transaction_monitor.py can_notify_vendor: a vendor absent from the dict
may be notified; otherwise at least notification_cooldown seconds must have
elapsed since its recorded last notification. -/
def can_notify_vendor (s : NotificationSettings) (lastN : List (String × Int))
    (now : Int) (vendor : String) : Bool :=
  match lookupTime lastN vendor with
  | none => true
  | some last => decide (s.notification_cooldown ≤ now - last)

/-- transaction_monitor.py send_transaction_notifications over the candidate
list: filter, then per-vendor cooldown, then emit and record the emission
time under the derived vendor name. now is the wall clock during the call.
Returns the updated last-notification dict and the emitted notifications. -/
def send_transaction_notifications (s : NotificationSettings) (now : Int)
    (lastN : List (String × Int)) :
    List RawTx → List (String × Int) × List RawTx
  | [] => (lastN, [])
  | tx :: rest =>
      if should_notify_transaction s tx then
        let v := get_vendor_name tx
        if can_notify_vendor s lastN now v then
          let out := send_transaction_notifications s now (setTime lastN v now) rest
          (out.1, tx :: out.2)
        else send_transaction_notifications s now lastN rest
      else send_transaction_notifications s now lastN rest

/-- The in-memory state of the monitor: the seen-set
last_checked_transactions and the per-vendor last_notification_time dict. -/
structure MonitorState where
  seen : Finset (Option String)
  lastN : List (String × Int)
deriving DecidableEq

/-- One poll tick of check_for_new_transactions: detect new transactions
across core ++ credit accounts (growing the seen-set), then run the
notification pass over the candidates. Returns the new state and the emitted
notifications. -/
def check_for_new_transactions (s : NotificationSettings) (now : Int)
    (st : MonitorState) (core credit : List (Account × List RawTx)) :
    MonitorState × List RawTx :=
  let det := detect_accounts st.seen (credit.map Prod.fst) (core ++ credit)
  let sent := send_transaction_notifications s now st.lastN det.2
  (⟨det.1, sent.1⟩, sent.2)

/-- The input of one poll tick: settings as loaded at that moment (they may
change between ticks), the wall clock, and the fetched account pools. -/
structure TickInput where
  settings : NotificationSettings
  now : Int
  core : List (Account × List RawTx)
  credit : List (Account × List RawTx)

/-- A run of successive poll ticks from a state, collecting every emitted
notification. -/
def run_ticks (st : MonitorState) :
    List TickInput → MonitorState × List RawTx
  | [] => (st, [])
  | t :: rest =>
      let one := check_for_new_transactions t.settings t.now st t.core t.credit
      let more := run_ticks one.1 rest
      (more.1, one.2 ++ more.2)

/-! ## Bridge lemmas: the executable string comparisons agree with the
Mathlib linear order on String -/

theorem charListLt_iff :
    ∀ a b : List Char, charListLt a b = true ↔ List.Lex (fun x y => x < y) a b := by
  intro a
  induction a with
  | nil =>
      intro b
      cases b with
      | nil => simp [charListLt]
      | cons c cs => simp [charListLt]; exact List.Lex.nil
  | cons x xs ih =>
      intro b
      cases b with
      | nil => simp [show charListLt (x :: xs) [] = false from rfl]
      | cons y ys =>
          simp only [charListLt]
          split
          · rename_i hxy
            simp only [true_iff]
            exact List.Lex.rel hxy
          · rename_i hxy
            split
            · rename_i hyx
              simp only [Bool.false_eq_true, false_iff]
              intro hL
              cases hL with
              | cons h => exact absurd hyx (lt_irrefl _)
              | rel h => exact absurd h hxy
            · rename_i hyx
              have hEq : x = y := le_antisymm (le_of_not_lt hyx) (le_of_not_lt hxy)
              subst hEq
              rw [ih ys]
              exact Iff.symm List.Lex.cons_iff

theorem strLtB_iff (a b : String) : strLtB a b = true ↔ a < b := by
  rw [String.lt_iff_toList_lt]
  exact charListLt_iff a.toList b.toList

theorem strLeB_iff (a b : String) : strLeB a b = true ↔ a ≤ b := by
  have h1 : strLeB a b = true ↔ ¬ strLtB b a = true := by
    rw [strLeB]
    cases strLtB b a <;> simp
  rw [h1, strLtB_iff]
  exact not_lt

theorem strMaxB_eq_max (m c : String) : strMaxB m c = max m c := by
  rw [strMaxB]
  by_cases h : strLtB m c = true
  · rw [if_pos h]
    exact (max_eq_right (le_of_lt ((strLtB_iff m c).mp h))).symm
  · rw [if_neg h]
    have : ¬ m < c := fun hc => h ((strLtB_iff m c).mpr hc)
    exact (max_eq_left (le_of_not_lt this)).symm

instance : IsTotal Row rowLe :=
  ⟨fun a b => by
    rcases le_total (rowKey a) (rowKey b) with h | h
    · exact Or.inl ((strLeB_iff _ _).mpr h)
    · exact Or.inr ((strLeB_iff _ _).mpr h)⟩

instance : IsTrans Row rowLe :=
  ⟨fun _ _ _ h h' => (strLeB_iff _ _).mpr
    (le_trans ((strLeB_iff _ _).mp h) ((strLeB_iff _ _).mp h'))⟩

/-! ## Store lemmas -/

theorem filter_not_id_then_id (s : List Row) (i : String) :
    (s.filter (fun q => decide (q.id ≠ some i))).filter
      (fun q => decide (q.id = some i)) = [] := by
  induction s with
  | nil => rfl
  | cons x xs ih =>
      by_cases hx : x.id = some i
      · simp only [List.filter, hx]
        simp [ih]
      · simp only [List.filter]
        rw [decide_eq_true (show x.id ≠ some i from hx)]
        simp only [List.filter]
        rw [decide_eq_false hx]
        exact ih

theorem upsert_one_filter_id (s : List Row) (r : Row) (i : String)
    (h : r.id = some i) :
    (upsert_one s r).filter (fun q => decide (q.id = some i)) = [r] := by
  rw [upsert_one, h]
  rw [List.filter_append, filter_not_id_then_id]
  simp [h]

theorem upsert_single_eq (s : List Row) (r : Row) :
    upsert_transactions s [r] = upsert_one s r := rfl

/-- Iterated single-record batch upsert. -/
def upsertIter (r : Row) : Nat → List Row → List Row
  | 0, s => s
  | n + 1, s => upsertIter r n (upsert_transactions s [r])

theorem upsertIter_filter_id (r : Row) (i : String) (h : r.id = some i) :
    ∀ n s, 1 ≤ n →
      (upsertIter r n s).filter (fun q => decide (q.id = some i)) = [r] := by
  intro n
  induction n with
  | zero => intro s hs; cases hs
  | succ m ih =>
      intro s _
      cases m with
      | zero =>
          show (upsert_transactions s [r]).filter _ = [r]
          rw [upsert_single_eq]
          exact upsert_one_filter_id s r i h
      | succ k =>
          exact ih (upsert_transactions s [r]) (Nat.succ_le_succ (Nat.zero_le k))

/-- C1. Upsert is idempotent keyed by the transaction id: after upserting a
record r (carrying id i) any number N >= 1 of times into any starting store,
the store holds exactly one row with id i and that row is r (field values of
the last write); replaying the id with an updated record r2 replaces the row
(again exactly one row for id i, now equal to r2) instead of adding a
duplicate. -/
theorem upsert_idempotent_keyed_by_id (store : List Row) (r r2 : Row)
    (i : String) (hid : r.id = some i) (hid2 : r2.id = some i)
    (n : Nat) (hn : 1 ≤ n) :
    (upsertIter r n store).filter (fun q => decide (q.id = some i)) = [r] ∧
    (upsert_transactions (upsertIter r n store) [r2]).filter
      (fun q => decide (q.id = some i)) = [r2] := by
  refine ⟨upsertIter_filter_id r i hid n store hn, ?_⟩
  rw [upsert_single_eq]
  exact upsert_one_filter_id _ r2 i hid2

theorem upsert_idempotent_keyed_by_id_witness :
    (({ id := some "tx9", amount := some 5 } : Row).id = some "tx9" ∧
      ({ id := some "tx9", amount := some 7 } : Row).id = some "tx9" ∧ 1 ≤ 3) ∧
    ((upsertIter { id := some "tx9", amount := some 5 } 3
        [{ id := some "other", amount := some 1 }]).filter
        (fun q => decide (q.id = some "tx9")) =
      [{ id := some "tx9", amount := some 5 }] ∧
    (upsert_transactions
        (upsertIter { id := some "tx9", amount := some 5 } 3
          [{ id := some "other", amount := some 1 }])
        [{ id := some "tx9", amount := some 7 }]).filter
        (fun q => decide (q.id = some "tx9")) =
      [{ id := some "tx9", amount := some 7 }]) :=
  ⟨⟨rfl, rfl, by decide⟩,
    upsert_idempotent_keyed_by_id
      [{ id := some "other", amount := some 1 }]
      { id := some "tx9", amount := some 5 }
      { id := some "tx9", amount := some 7 }
      "tx9" rfl rfl 3 (by decide)⟩

/-! ## Watermark lemmas (C4) -/

theorem strLeB_strLtB_false (c t : String) (h : strLeB c t = true) :
    strLtB t c = false := by
  cases hb : strLtB t c
  · rfl
  · exact absurd ((strLtB_iff t c).mp hb)
      (not_lt_of_le ((strLeB_iff c t).mp h))

theorem strLeB_not_lt_eq (m t : String) (hle : strLeB m t = true)
    (hnlt : strLtB m t = false) : m = t := by
  refine le_antisymm ((strLeB_iff m t).mp hle) (le_of_not_lt ?_)
  intro hlt
  rw [(strLtB_iff m t).mpr hlt] at hnlt
  cases hnlt

/-- Bool form of: every createdAt present on the row is at most t. -/
def tsLeB (t : String) (r : Row) : Bool :=
  match r.createdAt with
  | none => true
  | some c => strLeB c t

theorem maxStep_ts_none (acc : Option String) (r : Row)
    (hr : r.createdAt = none) : maxStep acc r = acc := by
  cases acc <;> simp [maxStep, hr]

theorem maxStep_ts_some_none (r : Row) (c : String)
    (hr : r.createdAt = some c) : maxStep none r = some c := by
  simp [maxStep, hr]

theorem maxStep_ts_some_some (m : String) (r : Row) (c : String)
    (hr : r.createdAt = some c) : maxStep (some m) r = some (strMaxB m c) := by
  simp [maxStep, hr]

theorem tsLeB_some (t : String) (r : Row) (c : String)
    (hr : r.createdAt = some c) (h : tsLeB t r = true) : strLeB c t = true := by
  rw [tsLeB, hr] at h
  exact h

theorem strMaxB_le (m c t : String) (hm : strLeB m t = true)
    (hc : strLeB c t = true) : strLeB (strMaxB m c) t = true := by
  rw [strMaxB]
  cases strLtB m c
  · simpa using hm
  · simpa using hc

theorem strMaxB_left_top (t c : String) (hc : strLeB c t = true) :
    strMaxB t c = t := by
  rw [strMaxB, strLeB_strLtB_false c t hc]
  simp

theorem strMaxB_right_top (m t : String) (hm : strLeB m t = true) :
    strMaxB m t = t := by
  rw [strMaxB]
  cases hlt : strLtB m t
  · rw [strLeB_not_lt_eq m t hm hlt]
    simp
  · simp

theorem foldl_maxStep_none : ∀ (l : List Row) (acc : Option String),
    (l.foldl maxStep acc = none ↔ acc = none ∧ ∀ r ∈ l, r.createdAt = none) := by
  intro l
  induction l with
  | nil => intro acc; simp
  | cons r rest ih =>
      intro acc
      rw [List.foldl_cons, ih (maxStep acc r)]
      constructor
      · rintro ⟨hstep, hrest⟩
        rcases hr : r.createdAt with _ | c
        · rw [maxStep_ts_none acc r hr] at hstep
          refine ⟨hstep, ?_⟩
          intro q hq
          rcases List.mem_cons.mp hq with hq | hq
          · rw [hq]; exact hr
          · exact hrest q hq
        · exfalso
          rcases ha : acc with _ | m
          · rw [ha, maxStep_ts_some_none r c hr] at hstep
            exact Option.noConfusion hstep
          · rw [ha, maxStep_ts_some_some m r c hr] at hstep
            exact Option.noConfusion hstep
      · rintro ⟨hacc, hall⟩
        have hr : r.createdAt = none := hall r (List.mem_cons_self r rest)
        refine ⟨?_, fun q hq => hall q (List.mem_cons_of_mem r hq)⟩
        rw [maxStep_ts_none acc r hr, hacc]

theorem foldl_maxStep_reaches : ∀ (l : List Row) (acc : Option String) (t : String),
    (∀ m, acc = some m → strLeB m t = true) →
    (∀ r ∈ l, tsLeB t r = true) →
    (acc = some t ∨ ∃ r ∈ l, r.createdAt = some t) →
    l.foldl maxStep acc = some t := by
  intro l
  induction l with
  | nil =>
      intro acc t _ _ hhit
      rcases hhit with h | ⟨r, hr, _⟩
      · exact h
      · cases hr
  | cons r rest ih =>
      intro acc t hacc hub hhit
      rw [List.foldl_cons]
      have hubr : tsLeB t r = true := hub r (List.mem_cons_self r rest)
      have hubrest : ∀ q ∈ rest, tsLeB t q = true :=
        fun q hq => hub q (List.mem_cons_of_mem r hq)
      have hacc' : ∀ m, maxStep acc r = some m → strLeB m t = true := by
        intro m hm
        rcases hr : r.createdAt with _ | c
        · rw [maxStep_ts_none acc r hr] at hm
          exact hacc m hm
        · have hc : strLeB c t = true := tsLeB_some t r c hr hubr
          rcases ha : acc with _ | m0
          · rw [ha, maxStep_ts_some_none r c hr] at hm
            rw [← Option.some.inj hm]
            exact hc
          · rw [ha, maxStep_ts_some_some m0 r c hr] at hm
            rw [← Option.some.inj hm]
            exact strMaxB_le m0 c t (hacc m0 ha) hc
      rcases hhit with haccT | ⟨q, hq, hqts⟩
      · refine ih (maxStep acc r) t hacc' hubrest (Or.inl ?_)
        rcases hr : r.createdAt with _ | c
        · rw [maxStep_ts_none acc r hr, haccT]
        · have hc : strLeB c t = true := tsLeB_some t r c hr hubr
          rw [haccT, maxStep_ts_some_some t r c hr, strMaxB_left_top t c hc]
      · rcases List.mem_cons.mp hq with hqr | hqrest
        · subst hqr
          refine ih (maxStep acc q) t hacc' hubrest (Or.inl ?_)
          rcases ha : acc with _ | m0
          · rw [maxStep_ts_some_none q t hqts]
          · rw [maxStep_ts_some_some m0 q t hqts,
              strMaxB_right_top m0 t (hacc m0 ha)]
        · exact ih (maxStep acc r) t hacc' hubrest (Or.inr ⟨q, hqrest, hqts⟩)

theorem upsert_one_some (s : List Row) (r : Row) (i : String)
    (h : r.id = some i) :
    upsert_one s r = s.filter (fun q => decide (q.id ≠ some i)) ++ [r] := by
  rw [upsert_one, h]

theorem upsert_one_fresh (s : List Row) (r : Row) (i : String)
    (h : r.id = some i) (hfresh : ∀ q ∈ s, q.id ≠ some i) :
    upsert_one s r = s ++ [r] := by
  rw [upsert_one_some s r i h]
  have h2 : s.filter (fun q => decide (q.id ≠ some i)) = s :=
    List.filter_eq_self.mpr (fun q hq => decide_eq_true (hfresh q hq))
  rw [h2]

theorem upsert_transactions_all_fresh :
    ∀ (batch s : List Row),
      (∀ r ∈ batch, r.id.isSome = true) →
      (batch.map Row.id).Nodup →
      (∀ r ∈ batch, ∀ q ∈ s, q.id ≠ r.id) →
      upsert_transactions s batch = s ++ batch := by
  intro batch
  induction batch with
  | nil => intro s _ _ _; simp [upsert_transactions]
  | cons r rest ih =>
      intro s hsome hnd hfresh
      have hnd1 : (Row.id r :: rest.map Row.id).Nodup := by
        simpa using hnd
      obtain ⟨i, hi⟩ := Option.isSome_iff_exists.mp
        (hsome r (List.mem_cons_self r rest))
      have h1 : upsert_one s r = s ++ [r] := by
        refine upsert_one_fresh s r i hi ?_
        intro q hq hqi
        exact hfresh r (List.mem_cons_self r rest) q hq (hqi.trans hi.symm)
      have hstep : upsert_transactions s (r :: rest) =
          upsert_transactions (upsert_one s r) rest := rfl
      rw [hstep, h1]
      rw [ih (s ++ [r])
        (fun q hq => hsome q (List.mem_cons_of_mem r hq))
        (List.nodup_cons.mp hnd1).2
        ?_]
      · simp
      · intro q hq p hp hpq
        rcases List.mem_append.mp hp with hps | hpr
        · exact hfresh q (List.mem_cons_of_mem r hq) p hps hpq
        · have hpr' : p = r := by simpa using hpr
          subst hpr'
          have hni : p.id ∉ rest.map Row.id := (List.nodup_cons.mp hnd1).1
          exact hni (hpq ▸ List.mem_map_of_mem Row.id hq)

/-- C4 counterexample to the claim as stated: a row upserted without a
createdAt yields a non-empty store on which the watermark query still
returns absent, so absent does not characterize the empty store. -/
theorem watermark_absent_on_nonempty_store_cx :
    get_max_createdAt (upsert_transactions [] [{ id := some "t1" }]) = none ∧
    upsert_transactions [] [{ id := some "t1" }] ≠ ([] : List Row) := by
  decide

/-- C4 (amended). get_max_createdAt returns the maximum createdAt among the
rows that carry one, and returns absent exactly when no row carries a
createdAt (in particular when the store is empty); after upserting a batch
of distinct-id transactions whose timestamps are bounded by t with t
attained - e.g. T1 < T2 < T3 inserted in any scrambled order - the
watermark is t (= T3). -/
theorem watermark_max_createdAt (batch : List Row) (t : String)
    (hids : ∀ r ∈ batch, r.id.isSome = true)
    (hnd : (batch.map Row.id).Nodup)
    (hhit : ∃ r ∈ batch, r.createdAt = some t)
    (hub : ∀ r ∈ batch, tsLeB t r = true) :
    get_max_createdAt (upsert_transactions [] batch) = some t ∧
    ∀ s : List Row, (get_max_createdAt s = none ↔ ∀ r ∈ s, r.createdAt = none) := by
  constructor
  · rw [upsert_transactions_all_fresh batch [] hids hnd (by intro r _ q hq; cases hq)]
    rw [List.nil_append]
    exact foldl_maxStep_reaches batch none t (by intro m hm; cases hm) hub
      (Or.inr hhit)
  · intro s
    rw [get_max_createdAt, foldl_maxStep_none]
    simp

theorem watermark_max_createdAt_witness :
    ((∀ r ∈ ([{ id := some "a", createdAt := some "2" },
               { id := some "b", createdAt := some "3" },
               { id := some "c", createdAt := some "1" }] : List Row),
        r.id.isSome = true) ∧
      (([{ id := some "a", createdAt := some "2" },
          { id := some "b", createdAt := some "3" },
          { id := some "c", createdAt := some "1" }] : List Row).map Row.id).Nodup ∧
      (∃ r ∈ ([{ id := some "a", createdAt := some "2" },
               { id := some "b", createdAt := some "3" },
               { id := some "c", createdAt := some "1" }] : List Row),
        r.createdAt = some "3") ∧
      (∀ r ∈ ([{ id := some "a", createdAt := some "2" },
               { id := some "b", createdAt := some "3" },
               { id := some "c", createdAt := some "1" }] : List Row),
        tsLeB "3" r = true)) ∧
    get_max_createdAt (upsert_transactions []
      [{ id := some "a", createdAt := some "2" },
       { id := some "b", createdAt := some "3" },
       { id := some "c", createdAt := some "1" }]) = some "3" :=
  ⟨⟨by decide, by decide, by decide, by decide⟩,
    (watermark_max_createdAt
      [{ id := some "a", createdAt := some "2" },
       { id := some "b", createdAt := some "3" },
       { id := some "c", createdAt := some "1" }]
      "3" (by decide) (by decide) (by decide) (by decide)).1⟩

/-! ## Month query (C9) -/

/-- C9. Month query correctness: get_cached_transactions_for_month returns
exactly the stored rows whose createdAt lies in the half-open window
from the first instant of the month (inclusive) to the first instant of the
following month (exclusive, with December rolling into January of the next
year), ordered by createdAt ascending; and in the end-to-end scenario - an
empty store, a full sync of three transactions for account acc1 spanning two
months - querying the month holding two of them returns exactly those two in
ascending createdAt order. -/
theorem month_query_correct (store : List Row) (year month : Nat) :
    List.Perm (get_cached_transactions_for_month store year month)
      (store.filter (inMonthWindow year month)) ∧
    List.Sorted rowLe (get_cached_transactions_for_month store year month) ∧
    (∀ r : Row, r ∈ get_cached_transactions_for_month store year month ↔
      (r ∈ store ∧ inMonthWindow year month r = true)) ∧
    (initial_sync_all_accounts
        [("acc1",
          [{ id := some "t3", createdAt := some "2024-02-10T08:00:00+00:00" },
           { id := some "t2", createdAt := some "2024-01-20T09:00:00+00:00" },
           { id := some "t1", createdAt := some "2024-01-05T10:00:00+00:00" }])]
        []).map
      (fun st => (get_cached_transactions_for_month st 2024 1).map Row.id) =
      some [some "t1", some "t2"] := by
  refine ⟨List.perm_insertionSort rowLe _, List.sorted_insertionSort rowLe _,
    ?_, by decide⟩
  intro r
  rw [get_cached_transactions_for_month,
    List.Perm.mem_iff (List.perm_insertionSort rowLe _), List.mem_filter]

/-! ## Seen-set detection lemmas (C3, C8, C10) -/

theorem detect_txs_spec :
    ∀ (txs : List RawTx) (seen : Finset (Option String)) (name : String)
      (isCr : Bool),
      (∀ i : Option String, i ∈ (detect_txs seen name isCr txs).1 ↔
        (i ∈ seen ∨ ∃ tx ∈ txs, tx.id = i)) ∧
      (((detect_txs seen name isCr txs).2.map RawTx.id).Nodup) ∧
      (∀ i : Option String,
        (∃ c ∈ (detect_txs seen name isCr txs).2, c.id = i) ↔
          (i ∉ seen ∧ ∃ tx ∈ txs, tx.id = i)) := by
  intro txs
  induction txs with
  | nil =>
      intro seen name isCr
      refine ⟨fun i => ?_, by simp [detect_txs], fun i => ?_⟩
      · simp [detect_txs]
      · simp [detect_txs]
  | cons tx rest ih =>
      intro seen name isCr
      by_cases hmem : tx.id ∈ seen
      · have hred : detect_txs seen name isCr (tx :: rest) =
            detect_txs seen name isCr rest := by
          simp [detect_txs, hmem]
        rw [hred]
        obtain ⟨iha, ihb, ihc⟩ := ih seen name isCr
        refine ⟨fun i => ?_, ihb, fun i => ?_⟩
        · rw [iha i]
          constructor
          · rintro (h | ⟨q, hq, hqi⟩)
            · exact Or.inl h
            · exact Or.inr ⟨q, List.mem_cons_of_mem tx hq, hqi⟩
          · rintro (h | ⟨q, hq, hqi⟩)
            · exact Or.inl h
            · rcases List.mem_cons.mp hq with rfl | hq'
              · exact Or.inl (hqi ▸ hmem)
              · exact Or.inr ⟨q, hq', hqi⟩
        · rw [ihc i]
          constructor
          · rintro ⟨hiS, q, hq, hqi⟩
            exact ⟨hiS, q, List.mem_cons_of_mem tx hq, hqi⟩
          · rintro ⟨hiS, q, hq, hqi⟩
            refine ⟨hiS, ?_⟩
            rcases List.mem_cons.mp hq with rfl | hq'
            · exact absurd (hqi ▸ hmem) hiS
            · exact ⟨q, hq', hqi⟩
      · have hred : detect_txs seen name isCr (tx :: rest) =
            ((detect_txs (insert tx.id seen) name isCr rest).1,
              { tx with
                account_name := some name
                account_type := some (if isCr then "credit" else "core") } ::
                (detect_txs (insert tx.id seen) name isCr rest).2) := by
          simp [detect_txs, hmem]
        rw [hred]
        obtain ⟨iha, ihb, ihc⟩ := ih (insert tx.id seen) name isCr
        have htag :
            ({ tx with
                account_name := some name
                account_type := some (if isCr then "credit" else "core") } :
              RawTx).id = tx.id := rfl
        refine ⟨fun i => ?_, ?_, fun i => ?_⟩
        · rw [iha i, Finset.mem_insert]
          constructor
          · rintro ((h | h) | ⟨q, hq, hqi⟩)
            · exact Or.inr ⟨tx, List.mem_cons_self tx rest, h.symm⟩
            · exact Or.inl h
            · exact Or.inr ⟨q, List.mem_cons_of_mem tx hq, hqi⟩
          · rintro (h | ⟨q, hq, hqi⟩)
            · exact Or.inl (Or.inr h)
            · rcases List.mem_cons.mp hq with rfl | hq'
              · exact Or.inl (Or.inl hqi.symm)
              · exact Or.inr ⟨q, hq', hqi⟩
        · rw [List.map_cons, htag]
          refine List.nodup_cons.mpr ⟨?_, ihb⟩
          intro hin
          obtain ⟨c, hc, hci⟩ := List.mem_map.mp hin
          have := (ihc tx.id).mp ⟨c, hc, hci⟩
          exact this.1 (Finset.mem_insert_self tx.id seen)
        · constructor
          · rintro ⟨c, hc, hci⟩
            rcases List.mem_cons.mp hc with rfl | hc'
            · rw [htag] at hci
              refine ⟨fun hIn => hmem ?_, tx, List.mem_cons_self tx rest, hci⟩
              rw [hci]
              exact hIn
            · obtain ⟨hiIns, q, hq, hqi⟩ := (ihc i).mp ⟨c, hc', hci⟩
              rw [Finset.mem_insert] at hiIns
              push_neg at hiIns
              exact ⟨hiIns.2, q, List.mem_cons_of_mem tx hq, hqi⟩
          · rintro ⟨hiS, q, hq, hqi⟩
            by_cases hitx : i = tx.id
            · refine ⟨_, List.mem_cons_self _ _, ?_⟩
              rw [htag, hitx]
            · rcases List.mem_cons.mp hq with rfl | hq'
              · exact absurd hqi.symm hitx
              · have hiIns : i ∉ insert tx.id seen := by
                  rw [Finset.mem_insert]
                  push_neg
                  exact ⟨fun h => hitx h, hiS⟩
                obtain ⟨c, hc, hci⟩ := (ihc i).mpr ⟨hiIns, q, hq', hqi⟩
                exact ⟨c, List.mem_cons_of_mem _ hc, hci⟩

/-- Whether the monitor processes an account (Python: if not account_id:
continue, with None and the empty string falsy). -/
def accountOk (a : Account) : Prop := ¬ a.id.getD "" = ""

instance : DecidablePred accountOk := fun a =>
  inferInstanceAs (Decidable (¬ a.id.getD "" = ""))

theorem detect_accounts_spec :
    ∀ (accts : List (Account × List RawTx)) (seen : Finset (Option String))
      (creditAccts : List Account),
      (∀ i : Option String, i ∈ (detect_accounts seen creditAccts accts).1 ↔
        (i ∈ seen ∨ ∃ p ∈ accts, accountOk p.1 ∧ ∃ tx ∈ p.2, tx.id = i)) ∧
      (((detect_accounts seen creditAccts accts).2.map RawTx.id).Nodup) ∧
      (∀ i : Option String,
        (∃ c ∈ (detect_accounts seen creditAccts accts).2, c.id = i) ↔
          (i ∉ seen ∧ ∃ p ∈ accts, accountOk p.1 ∧ ∃ tx ∈ p.2, tx.id = i)) := by
  intro accts
  induction accts with
  | nil =>
      intro seen creditAccts
      refine ⟨fun i => ?_, by simp [detect_accounts], fun i => ?_⟩
      · simp [detect_accounts]
      · simp [detect_accounts]
  | cons p rest ih =>
      intro seen creditAccts
      obtain ⟨a, txs⟩ := p
      by_cases hok : a.id.getD "" = ""
      · have hred : detect_accounts seen creditAccts ((a, txs) :: rest) =
            detect_accounts seen creditAccts rest := by
          simp [detect_accounts, hok]
        rw [hred]
        obtain ⟨iha, ihb, ihc⟩ := ih seen creditAccts
        have habsorb : ∀ i : Option String,
            (∃ p ∈ (a, txs) :: rest, accountOk p.1 ∧ ∃ tx ∈ p.2, tx.id = i) ↔
            (∃ p ∈ rest, accountOk p.1 ∧ ∃ tx ∈ p.2, tx.id = i) := by
          intro i
          constructor
          · rintro ⟨q, hq, hqok, hhit⟩
            rcases List.mem_cons.mp hq with rfl | hq'
            · exact absurd hok hqok
            · exact ⟨q, hq', hqok, hhit⟩
          · rintro ⟨q, hq, hqok, hhit⟩
            exact ⟨q, List.mem_cons_of_mem _ hq, hqok, hhit⟩
        refine ⟨fun i => ?_, ihb, fun i => ?_⟩
        · rw [iha i, habsorb i]
        · rw [ihc i, habsorb i]
      · have hred : detect_accounts seen creditAccts ((a, txs) :: rest) =
            ((detect_accounts
                (detect_txs seen (accountName a) (decide (a ∈ creditAccts)) txs).1
                creditAccts rest).1,
              (detect_txs seen (accountName a) (decide (a ∈ creditAccts)) txs).2 ++
              (detect_accounts
                (detect_txs seen (accountName a) (decide (a ∈ creditAccts)) txs).1
                creditAccts rest).2) := by
          simp [detect_accounts, hok]
        rw [hred]
        obtain ⟨ta, tb, tc⟩ :=
          detect_txs_spec txs seen (accountName a) (decide (a ∈ creditAccts))
        obtain ⟨iha, ihb, ihc⟩ := ih
          (detect_txs seen (accountName a) (decide (a ∈ creditAccts)) txs).1
          creditAccts
        have hsplit : ∀ i : Option String,
            (∃ p ∈ (a, txs) :: rest, accountOk p.1 ∧ ∃ tx ∈ p.2, tx.id = i) ↔
            ((∃ tx ∈ txs, tx.id = i) ∨
              ∃ p ∈ rest, accountOk p.1 ∧ ∃ tx ∈ p.2, tx.id = i) := by
          intro i
          constructor
          · rintro ⟨q, hq, hqok, hhit⟩
            rcases List.mem_cons.mp hq with rfl | hq'
            · exact Or.inl hhit
            · exact Or.inr ⟨q, hq', hqok, hhit⟩
          · rintro (hhit | ⟨q, hq, hqok, hhit⟩)
            · exact ⟨(a, txs), List.mem_cons_self _ _, hok, hhit⟩
            · exact ⟨q, List.mem_cons_of_mem _ hq, hqok, hhit⟩
        refine ⟨fun i => ?_, ?_, fun i => ?_⟩
        · rw [iha i, ta i, hsplit i]
          exact or_assoc
        · rw [List.map_append]
          refine List.Nodup.append tb ihb ?_
          intro x hx1 hx2
          obtain ⟨c, hc, hci⟩ := List.mem_map.mp hx1
          obtain ⟨d, hd, hdi⟩ := List.mem_map.mp hx2
          have hxin : x ∈ (detect_txs seen (accountName a)
              (decide (a ∈ creditAccts)) txs).1 := by
            rw [ta x]
            exact Or.inr ((tc x).mp ⟨c, hc, hci⟩).2
          exact ((ihc x).mp ⟨d, hd, hdi⟩).1 hxin
        · constructor
          · rintro ⟨c, hc, hci⟩
            rcases List.mem_append.mp hc with hc1 | hc2
            · obtain ⟨hiS, hhit⟩ := (tc i).mp ⟨c, hc1, hci⟩
              exact ⟨hiS, (hsplit i).mpr (Or.inl hhit)⟩
            · obtain ⟨hi1, hhit⟩ := (ihc i).mp ⟨c, hc2, hci⟩
              have hiS : i ∉ seen := fun hin => hi1 ((ta i).mpr (Or.inl hin))
              exact ⟨hiS, (hsplit i).mpr (Or.inr hhit)⟩
          · rintro ⟨hiS, hhit⟩
            rcases (hsplit i).mp hhit with htx | hrest
            · obtain ⟨c, hc, hci⟩ := (tc i).mpr ⟨hiS, htx⟩
              exact ⟨c, List.mem_append.mpr (Or.inl hc), hci⟩
            · by_cases htx2 : ∃ tx ∈ txs, tx.id = i
              · obtain ⟨c, hc, hci⟩ := (tc i).mpr ⟨hiS, htx2⟩
                exact ⟨c, List.mem_append.mpr (Or.inl hc), hci⟩
              · have hi1 : i ∉ (detect_txs seen (accountName a)
                    (decide (a ∈ creditAccts)) txs).1 := by
                  rw [ta i]
                  push_neg
                  exact ⟨hiS, by
                    intro q hq hqi
                    exact htx2 ⟨q, hq, hqi⟩⟩
                obtain ⟨c, hc, hci⟩ := (ihc i).mpr ⟨hi1, hrest⟩
                exact ⟨c, List.mem_append.mpr (Or.inr hc), hci⟩

/-- C3. Seen-set gating: in one poll tick over the core and credit pools,
the produced notification candidates carry pairwise distinct ids; an id is
produced exactly when it was fetched by some processed (truthy-id) account
and was not in the seen-set; the seen-set afterwards is the old seen-set
together with every fetched id; and in the concrete instance of a seen-set
pre-populated with ids A and B and a tick returning A, B, C, exactly the one
candidate C is produced. -/
theorem seen_set_gating (S : Finset (Option String))
    (core credit : List (Account × List RawTx)) :
    (((detect_accounts S (credit.map Prod.fst) (core ++ credit)).2.map
        RawTx.id).Nodup) ∧
    (∀ i : Option String,
      (∃ c ∈ (detect_accounts S (credit.map Prod.fst) (core ++ credit)).2,
          c.id = i) ↔
        (i ∉ S ∧ ∃ p ∈ core ++ credit, accountOk p.1 ∧ ∃ tx ∈ p.2, tx.id = i)) ∧
    (∀ i : Option String,
      i ∈ (detect_accounts S (credit.map Prod.fst) (core ++ credit)).1 ↔
        (i ∈ S ∨ ∃ p ∈ core ++ credit, accountOk p.1 ∧ ∃ tx ∈ p.2, tx.id = i)) ∧
    ((detect_accounts {some "A", some "B"} ([] : List Account)
        [({ id := some "acct", name := some "Checking" },
          [{ id := some "A" }, { id := some "B" }, { id := some "C" }])]).2.map
        RawTx.id = [some "C"]) := by
  obtain ⟨ha, hb, hc⟩ :=
    detect_accounts_spec (core ++ credit) S (credit.map Prod.fst)
  exact ⟨hb, hc, ha, by decide⟩

/-! ## Vendor derivation (C7) -/

theorem orElseStr_truthy (a b : Option String) (h : truthyStr a = true) :
    orElseStr a b = a := by
  rcases a with _ | s
  · cases h
  · rw [truthyStr] at h
    rw [orElseStr, if_neg (of_decide_eq_true h)]

theorem orElseStr_falsy (a b : Option String) (h : truthyStr a = false) :
    orElseStr a b = b := by
  rcases a with _ | s
  · rfl
  · rw [truthyStr] at h
    have hs : s = "" := not_not.mp (of_decide_eq_false h)
    rw [orElseStr, if_pos hs]

theorem truthyStr_isSome (a : Option String) (h : truthyStr a = true) :
    a.isSome = true := by
  rcases a with _ | s
  · cases h
  · rfl

/-- Whether any of the four fields shared by both vendor derivations is
present and non-empty. -/
def vendorFieldsPresent (tx : RawTx) : Bool :=
  truthyStr tx.merchantName || truthyStr tx.counterpartyName ||
  truthyStr tx.bankDescription || truthyStr (cardMerchant tx)

theorem vendorChain_tail_irrelevant (tx : RawTx) (t1 t2 : Option String)
    (h : vendorFieldsPresent tx = true) :
    vendorChain tx t1 = vendorChain tx t2 := by
  rw [vendorFieldsPresent] at h
  rw [vendorChain, vendorChain]
  cases hm : truthyStr tx.merchantName
  · rw [orElseStr_falsy _ _ hm, orElseStr_falsy _ _ hm]
    cases hc : truthyStr tx.counterpartyName
    · rw [orElseStr_falsy _ _ hc, orElseStr_falsy _ _ hc]
      cases hb : truthyStr tx.bankDescription
      · rw [orElseStr_falsy _ _ hb, orElseStr_falsy _ _ hb]
        cases hcd : truthyStr (cardMerchant tx)
        · rw [hm, hc, hb, hcd] at h
          cases h
        · rw [orElseStr_truthy _ _ hcd, orElseStr_truthy _ _ hcd]
      · rw [orElseStr_truthy _ _ hb, orElseStr_truthy _ _ hb]
    · rw [orElseStr_truthy _ _ hc, orElseStr_truthy _ _ hc]
  · rw [orElseStr_truthy _ _ hm, orElseStr_truthy _ _ hm]

theorem vendorChain_present_isSome (tx : RawTx) (t : Option String)
    (h : vendorFieldsPresent tx = true) : (vendorChain tx t).isSome = true := by
  rw [vendorFieldsPresent] at h
  rw [vendorChain]
  cases hm : truthyStr tx.merchantName
  · rw [orElseStr_falsy _ _ hm]
    cases hc : truthyStr tx.counterpartyName
    · rw [orElseStr_falsy _ _ hc]
      cases hb : truthyStr tx.bankDescription
      · rw [orElseStr_falsy _ _ hb]
        cases hcd : truthyStr (cardMerchant tx)
        · rw [hm, hc, hb, hcd] at h
          cases h
        · rw [orElseStr_truthy _ _ hcd]
          exact truthyStr_isSome _ hcd
      · rw [orElseStr_truthy _ _ hb]
        exact truthyStr_isSome _ hb
    · rw [orElseStr_truthy _ _ hc]
      exact truthyStr_isSome _ hc
  · rw [orElseStr_truthy _ _ hm]
    exact truthyStr_isSome _ hm

theorem vendorChain_all_falsy (tx : RawTx) (t : Option String)
    (h : vendorFieldsPresent tx = false) :
    vendorChain tx t = t := by
  rw [vendorFieldsPresent] at h
  rw [Bool.or_eq_false_iff] at h
  obtain ⟨h3, hcd⟩ := h
  rw [Bool.or_eq_false_iff] at h3
  obtain ⟨h2, hb⟩ := h3
  rw [Bool.or_eq_false_iff] at h2
  obtain ⟨hm, hc⟩ := h2
  rw [vendorChain, orElseStr_falsy _ _ hm, orElseStr_falsy _ _ hc,
    orElseStr_falsy _ _ hb, orElseStr_falsy _ _ hcd]

/-- C7 counterexample to the claim as stated: on a record carrying only a
raw description, the notification feed derives "Unknown Vendor" (its chain
has no raw-description step) while the sync engine derives the description,
so the two sites do not agree on every record and the single claimed chain
(ending description, then "Unknown Vendor") matches neither site. -/
theorem vendor_derivation_sites_differ_cx :
    get_vendor_name { description := some "d" } = "Unknown Vendor" ∧
    sync_vendor_name { description := some "d" } = some "d" ∧
    sync_vendor_name { description := some "d" } ≠
      some (get_vendor_name { description := some "d" }) := by
  decide

/-- C7 (amended). The two vendor-derivation sites share the four-field
fallback chain merchant name, counterparty name, bank description,
card-detail merchant name, and agree (sync stores exactly the value the feed
displays) on every record in which at least one of those four fields is
present and non-empty - in particular a record with only bankDescription
set derives to the bankDescription value at both sites. They diverge in the
final fallback: with all four fields absent or empty, the feed
(get_vendor_name) yields the literal "Unknown Vendor" while the sync
derivation falls through to the raw description field (absent description
included). -/
theorem vendor_derivation_sites (tx : RawTx) :
    (vendorFieldsPresent tx = true →
      sync_vendor_name tx = some (get_vendor_name tx)) ∧
    (vendorFieldsPresent tx = false →
      get_vendor_name tx = "Unknown Vendor" ∧
      sync_vendor_name tx = tx.description) := by
  constructor
  · intro h
    rw [sync_vendor_name,
      vendorChain_tail_irrelevant tx tx.description (some "Unknown Vendor") h,
      get_vendor_name]
    obtain ⟨v, hv⟩ := Option.isSome_iff_exists.mp
      (vendorChain_present_isSome tx (some "Unknown Vendor") h)
    rw [hv]
    rfl
  · intro h
    constructor
    · rw [get_vendor_name, vendorChain_all_falsy tx _ h]
      rfl
    · rw [sync_vendor_name, vendorChain_all_falsy tx _ h]

theorem vendor_derivation_sites_witness :
    vendorFieldsPresent { bankDescription := some "ACME WIRE" } = true ∧
    sync_vendor_name { bankDescription := some "ACME WIRE" } =
      some (get_vendor_name { bankDescription := some "ACME WIRE" }) ∧
    get_vendor_name { bankDescription := some "ACME WIRE" } = "ACME WIRE" :=
  ⟨by decide,
    (vendor_derivation_sites { bankDescription := some "ACME WIRE" }).1
      (by decide),
    by decide⟩

/-! ## Missing-id handling (C8) -/

/-- C8: evaluation of the code at the failing input. A fetched transaction
with no id is not skipped by the monitor: on first sight its (absent) id is
added to the seen-set and the record becomes a notification candidate. And
the store does upsert a record without an id: the SQLite TEXT PRIMARY KEY
admits NULL, INSERT OR REPLACE finds no conflicting row, and repeated
upserts of id-less records accumulate duplicate NULL-keyed rows. -/
theorem missing_id_not_skipped_eval :
    ((detect_accounts (∅ : Finset (Option String)) ([] : List Account)
        [({ id := some "acct", name := some "A" },
          [({ amount := some 5 } : RawTx)])]).2.length = 1 ∧
      (none : Option String) ∈
        (detect_accounts (∅ : Finset (Option String)) ([] : List Account)
          [({ id := some "acct", name := some "A" },
            [({ amount := some 5 } : RawTx)])]).1) ∧
    upsert_transactions [] [({ amount := some 5 } : Row)] =
      [({ amount := some 5 } : Row)] ∧
    (upsert_transactions []
      [({ amount := some 5 } : Row), ({ amount := some 5 } : Row)]).length = 2 := by
  decide

/-! ## Cooldown (C6) -/

theorem lookupTime_setTime (m : List (String × Int)) (v : String) (t : Int) :
    lookupTime (setTime m v t) v = some t := by
  rw [setTime, lookupTime]
  have hfind : List.find? (fun p => decide (p.1 = v))
      ((v, t) :: m.filter (fun p => decide (p.1 ≠ v))) = some (v, t) :=
    List.find?_cons_of_pos _ (decide_eq_true rfl)
  rw [hfind]
  rfl

theorem send_cons_qualifying (s : NotificationSettings) (now : Int)
    (lastN : List (String × Int)) (tx : RawTx) (rest : List RawTx)
    (hq : should_notify_transaction s tx = true) :
    send_transaction_notifications s now lastN (tx :: rest) =
      if can_notify_vendor s lastN now (get_vendor_name tx) = true then
        ((send_transaction_notifications s now
            (setTime lastN (get_vendor_name tx) now) rest).1,
          tx :: (send_transaction_notifications s now
            (setTime lastN (get_vendor_name tx) now) rest).2)
      else send_transaction_notifications s now lastN rest := by
  rw [send_transaction_notifications, if_pos hq]

theorem send_nil (s : NotificationSettings) (now : Int)
    (lastN : List (String × Int)) :
    send_transaction_notifications s now lastN [] = (lastN, []) := rfl

/-- C6. Per-vendor cooldown: given two filter-passing transactions deriving
to the same vendor name, where the first is notified at time t1, the second
(evaluated at time t2) is notified exactly when at least cooldown_seconds
have elapsed: strictly less than the cooldown yields one notification in
total, at least the cooldown yields two. -/
theorem cooldown_enforcement (s : NotificationSettings) (tx1 tx2 : RawTx)
    (lastN0 : List (String × Int)) (t1 t2 : Int)
    (hq1 : should_notify_transaction s tx1 = true)
    (hq2 : should_notify_transaction s tx2 = true)
    (hv : get_vendor_name tx2 = get_vendor_name tx1)
    (hfirst : can_notify_vendor s lastN0 t1 (get_vendor_name tx1) = true) :
    (send_transaction_notifications s t1 lastN0 [tx1]).2.length = 1 ∧
    (t2 - t1 < s.notification_cooldown →
      (send_transaction_notifications s t2
        (send_transaction_notifications s t1 lastN0 [tx1]).1 [tx2]).2.length = 0) ∧
    (s.notification_cooldown ≤ t2 - t1 →
      (send_transaction_notifications s t2
        (send_transaction_notifications s t1 lastN0 [tx1]).1 [tx2]).2.length = 1) := by
  have h1 : send_transaction_notifications s t1 lastN0 [tx1] =
      (setTime lastN0 (get_vendor_name tx1) t1, [tx1]) := by
    rw [send_cons_qualifying s t1 lastN0 tx1 [] hq1, if_pos hfirst, send_nil]
  have hcan2 : can_notify_vendor s (setTime lastN0 (get_vendor_name tx1) t1) t2
      (get_vendor_name tx2) =
      decide (s.notification_cooldown ≤ t2 - t1) := by
    rw [can_notify_vendor, hv, lookupTime_setTime]
  refine ⟨by rw [h1]; rfl, ?_, ?_⟩
  · intro hlt
    rw [h1, send_cons_qualifying s t2 _ tx2 [] hq2]
    rw [if_neg ?_]
    · rfl
    · rw [hcan2]
      simp only [decide_eq_true_eq]
      intro hc
      exact absurd hlt (not_lt_of_le hc)
  · intro hge
    rw [h1, send_cons_qualifying s t2 _ tx2 [] hq2]
    rw [if_pos ?_]
    · rfl
    · rw [hcan2]
      exact decide_eq_true hge

theorem cooldown_enforcement_witness :
    (should_notify_transaction {}
        { id := some "x1", kind := some "externalTransfer",
          amount := some 50, merchantName := some "ACME" } = true ∧
      should_notify_transaction {}
        { id := some "x2", kind := some "externalTransfer",
          amount := some 60, merchantName := some "ACME" } = true ∧
      get_vendor_name
        { id := some "x2", kind := some "externalTransfer",
          amount := some 60, merchantName := some "ACME" } =
        get_vendor_name
          { id := some "x1", kind := some "externalTransfer",
            amount := some 50, merchantName := some "ACME" } ∧
      can_notify_vendor {} [] 1000
        (get_vendor_name
          { id := some "x1", kind := some "externalTransfer",
            amount := some 50, merchantName := some "ACME" }) = true) ∧
    (send_transaction_notifications {} 1000 []
      [{ id := some "x1", kind := some "externalTransfer",
         amount := some 50, merchantName := some "ACME" }]).2.length = 1 ∧
    (1100 - 1000 < ({} : NotificationSettings).notification_cooldown →
      (send_transaction_notifications {} 1100
        (send_transaction_notifications {} 1000 []
          [{ id := some "x1", kind := some "externalTransfer",
             amount := some 50, merchantName := some "ACME" }]).1
        [{ id := some "x2", kind := some "externalTransfer",
           amount := some 60, merchantName := some "ACME" }]).2.length = 0) :=
  ⟨⟨by decide, by decide, by decide, by decide⟩,
    (cooldown_enforcement {}
      { id := some "x1", kind := some "externalTransfer",
        amount := some 50, merchantName := some "ACME" }
      { id := some "x2", kind := some "externalTransfer",
        amount := some 60, merchantName := some "ACME" }
      [] 1000 1100 (by decide) (by decide) (by decide) (by decide)).1,
    (cooldown_enforcement {}
      { id := some "x1", kind := some "externalTransfer",
        amount := some 50, merchantName := some "ACME" }
      { id := some "x2", kind := some "externalTransfer",
        amount := some 60, merchantName := some "ACME" }
      [] 1000 1100 (by decide) (by decide) (by decide) (by decide)).2.1⟩

/-! ## Permanent suppression (C10) -/

theorem send_subset : ∀ (txs : List RawTx) (s : NotificationSettings)
    (now : Int) (lastN : List (String × Int)),
    ∀ e ∈ (send_transaction_notifications s now lastN txs).2, e ∈ txs := by
  intro txs
  induction txs with
  | nil =>
      intro s now lastN e he
      cases he
  | cons tx rest ih =>
      intro s now lastN e he
      by_cases hq : should_notify_transaction s tx = true
      · rw [send_cons_qualifying s now lastN tx rest hq] at he
        by_cases hcn : can_notify_vendor s lastN now (get_vendor_name tx) = true
        · rw [if_pos hcn] at he
          rcases List.mem_cons.mp he with rfl | he'
          · exact List.mem_cons_self _ _
          · exact List.mem_cons_of_mem _ (ih s now _ e he')
        · rw [if_neg hcn] at he
          exact List.mem_cons_of_mem _ (ih s now lastN e he)
      · have hred : send_transaction_notifications s now lastN (tx :: rest) =
            send_transaction_notifications s now lastN rest := by
          rw [send_transaction_notifications, if_neg hq]
        rw [hred] at he
        exact List.mem_cons_of_mem _ (ih s now lastN e he)

theorem check_tick_emits_fresh (s : NotificationSettings) (now : Int)
    (st : MonitorState) (core credit : List (Account × List RawTx)) :
    ∀ e ∈ (check_for_new_transactions s now st core credit).2,
      e.id ∉ st.seen := by
  intro e he
  have he2 : e ∈ (detect_accounts st.seen (credit.map Prod.fst)
      (core ++ credit)).2 :=
    send_subset _ s now _ e he
  exact (((detect_accounts_spec (core ++ credit) st.seen
    (credit.map Prod.fst)).2.2 e.id).mp ⟨e, he2, rfl⟩).1

theorem check_tick_seen_mono (s : NotificationSettings) (now : Int)
    (st : MonitorState) (core credit : List (Account × List RawTx))
    (i : Option String) (hi : i ∈ st.seen) :
    i ∈ (check_for_new_transactions s now st core credit).1.seen := by
  show i ∈ (detect_accounts st.seen (credit.map Prod.fst) (core ++ credit)).1
  exact ((detect_accounts_spec (core ++ credit) st.seen
    (credit.map Prod.fst)).1 i).mpr (Or.inl hi)

theorem run_never_emits_seen : ∀ (ticks : List TickInput) (st : MonitorState)
    (i : Option String), i ∈ st.seen →
    ∀ e ∈ (run_ticks st ticks).2, e.id ≠ i := by
  intro ticks
  induction ticks with
  | nil =>
      intro st i _ e he
      cases he
  | cons t rest ih =>
      intro st i hi e he
      have hred : (run_ticks st (t :: rest)).2 =
          (check_for_new_transactions t.settings t.now st t.core t.credit).2 ++
          (run_ticks (check_for_new_transactions t.settings t.now st
            t.core t.credit).1 rest).2 := rfl
      rw [hred] at he
      rcases List.mem_append.mp he with h1 | h2
      · intro hei
        exact check_tick_emits_fresh t.settings t.now st t.core t.credit e h1
          (hei ▸ hi)
      · exact ih _ i
          (check_tick_seen_mono t.settings t.now st t.core t.credit i hi) e h2

/-- C10. Permanent suppression of filtered transactions: a transaction id
fetched during a poll tick by a processed account is added to the seen-set
at detection time, before the notification filter and cooldown run (the
membership below holds whether or not anything was emitted); consequently,
whatever rejected it in that tick, no later tick - under arbitrary later
settings, wall-clock times and fetched windows - ever emits a notification
carrying that id. -/
theorem filtered_tx_never_renotified (st : MonitorState) (i : Option String)
    (s : NotificationSettings) (now : Int)
    (core credit : List (Account × List RawTx))
    (hfetched : ∃ p ∈ core ++ credit, accountOk p.1 ∧ ∃ tx ∈ p.2, tx.id = i) :
    i ∈ (check_for_new_transactions s now st core credit).1.seen ∧
    ∀ (ticks : List TickInput),
      ∀ e ∈ (run_ticks (check_for_new_transactions s now st core credit).1
        ticks).2, e.id ≠ i := by
  have hseen : i ∈ (check_for_new_transactions s now st core credit).1.seen := by
    show i ∈ (detect_accounts st.seen (credit.map Prod.fst) (core ++ credit)).1
    exact ((detect_accounts_spec (core ++ credit) st.seen
      (credit.map Prod.fst)).1 i).mpr (Or.inr hfetched)
  exact ⟨hseen, fun ticks e he =>
    run_never_emits_seen ticks _ i hseen e he⟩

theorem filtered_tx_never_renotified_witness :
    (∃ p ∈ ([({ id := some "acct", name := some "A" },
          [({ id := some "X", kind := some "debit", amount := some 9 } :
            RawTx)])] :
        List (Account × List RawTx)) ++ [],
      accountOk p.1 ∧ ∃ tx ∈ p.2, tx.id = some "X") ∧
    some "X" ∈ (check_for_new_transactions { enabled := false } 0
      ⟨∅, []⟩
      [({ id := some "acct", name := some "A" },
        [{ id := some "X", kind := some "debit", amount := some 9 }])]
      []).1.seen :=
  ⟨⟨_, List.mem_cons_self _ _, by decide, _,
      List.mem_cons_self _ _, rfl⟩,
    (filtered_tx_never_renotified ⟨∅, []⟩ (some "X") { enabled := false } 0
      [({ id := some "acct", name := some "A" },
        [{ id := some "X", kind := some "debit", amount := some 9 }])]
      []
      ⟨_, List.mem_cons_self _ _, by decide, _,
        List.mem_cons_self _ _, rfl⟩).1⟩

/-! ## Pagination lemmas (C2, C5) -/

theorem strLeB_refl (a : String) : strLeB a a = true :=
  (strLeB_iff a a).mpr le_rfl

theorem strLeB_trans (a b c : String) (h1 : strLeB a b = true)
    (h2 : strLeB b c = true) : strLeB a c = true :=
  (strLeB_iff a c).mpr (le_trans ((strLeB_iff a b).mp h1) ((strLeB_iff b c).mp h2))

theorem strLeB_of_strLtB (a b : String) (h : strLtB a b = true) :
    strLeB a b = true :=
  (strLeB_iff a b).mpr (le_of_lt ((strLtB_iff a b).mp h))

theorem strLtB_of_le_of_lt (x y a : String) (h1 : strLeB x y = true)
    (h2 : strLtB y a = true) : strLtB x a = true :=
  (strLtB_iff x a).mpr (lt_of_le_of_lt ((strLeB_iff x y).mp h1)
    ((strLtB_iff y a).mp h2))

theorem strLtB_of_lt_of_le (x y a : String) (h1 : strLtB x y = true)
    (h2 : strLeB y a = true) : strLtB x a = true :=
  (strLtB_iff x a).mpr (lt_of_lt_of_le ((strLtB_iff x y).mp h1)
    ((strLeB_iff y a).mp h2))

theorem strLtB_empty_right (x : String) : strLtB x "" = false := by
  rw [strLtB]
  cases x.toList <;> rfl

theorem strLeB_empty_left (x : String) : strLeB "" x = true := by
  rw [strLeB, strLtB_empty_right x]
  rfl

theorem eq_empty_of_strLeB_empty (x : String) (h : strLeB x "" = true) :
    x = "" :=
  le_antisymm ((strLeB_iff x "").mp h) ((strLeB_iff "" x).mp (strLeB_empty_left x))

theorem strLeB_strMaxB_left (m c : String) : strLeB m (strMaxB m c) = true := by
  rw [strMaxB]
  cases h : strLtB m c
  · simpa using strLeB_refl m
  · simpa using strLeB_of_strLtB m c h

theorem strLeB_strMaxB_right (m c : String) : strLeB c (strMaxB m c) = true := by
  rw [strMaxB]
  cases h : strLtB m c
  · have : strLeB c m = true := by
      rw [strLeB, h]
      rfl
    simpa using this
  · simpa using strLeB_refl c

/-- The createdAt string of an upstream record (default only reached on
records without one, which the pagination hypotheses exclude). -/
def tsStr (r : RawTx) : String := r.createdAt.getD ""

/-- The source list is reverse-chronological (newest first), ties allowed. -/
def sortedDescB (M : List RawTx) : Prop :=
  M.Pairwise (fun x y => strLeB (tsStr y) (tsStr x) = true)

/-- Strictly reverse-chronological: no two records share a createdAt. -/
def sortedStrictDescB (M : List RawTx) : Prop :=
  M.Pairwise (fun x y => strLtB (tsStr y) (tsStr x) = true)

instance : DecidablePred sortedDescB := fun M =>
  inferInstanceAs
    (Decidable (M.Pairwise (fun x y => strLeB (tsStr y) (tsStr x) = true)))

instance : DecidablePred sortedStrictDescB := fun M =>
  inferInstanceAs
    (Decidable (M.Pairwise (fun x y => strLtB (tsStr y) (tsStr x) = true)))

theorem pageAfterCursor_split :
    ∀ (pre : List RawTx) (x : RawTx) (suf : List RawTx) (c : String),
      x.id = some c → (∀ p ∈ pre, p.id ≠ some c) →
      pageAfterCursor (pre ++ x :: suf) (some c) = suf := by
  intro pre
  induction pre with
  | nil =>
      intro x suf c hx _
      show (((x :: suf).dropWhile (fun r => decide (r.id ≠ some c))).drop 1) = suf
      rw [List.dropWhile_cons]
      have hpx : decide (x.id ≠ some c) = false := by
        rw [hx]
        simp
      rw [hpx]
      simp
  | cons p pre' ih =>
      intro x suf c hx hpre
      show (((p :: (pre' ++ x :: suf)).dropWhile
        (fun r => decide (r.id ≠ some c))).drop 1) = suf
      rw [List.dropWhile_cons]
      have hp : decide (p.id ≠ some c) = true :=
        decide_eq_true (hpre p (List.mem_cons_self p _))
      rw [hp]
      simp only [if_true]
      exact ih x suf c hx (fun q hq => hpre q (List.mem_cons_of_mem p hq))

theorem nodup_split_ne (M pre suf : List RawTx) (x : RawTx)
    (hM : M = pre ++ x :: suf) (hNd : (M.map RawTx.id).Nodup) :
    ∀ p ∈ pre, p.id ≠ x.id := by
  intro p hp hpx
  rw [hM, List.map_append, List.map_cons] at hNd
  obtain ⟨_, _, hdisj⟩ := List.nodup_append.mp hNd
  refine hdisj (List.mem_map_of_mem RawTx.id hp) ?_
  rw [hpx]
  exact List.mem_cons_self _ _


theorem fetch_loop_succ (M : List RawTx) (aft : Option String) (acc : String)
    (f : Nat) (cursor : Option String) :
    fetch_loop M aft acc (f + 1) cursor =
      match (servePage M cursor).getLast? with
      | none => some []
      | some lastTx =>
          match stopTs aft lastTx with
          | none => none
          | some true => some ((servePage M cursor).map (tagAccount acc))
          | some false =>
              match lastTx.id with
              | none => some ((servePage M cursor).map (tagAccount acc))
              | some cid =>
                  if cid = "" then
                    some ((servePage M cursor).map (tagAccount acc))
                  else
                    (fetch_loop M aft acc f (some cid)).map
                      (fun rest =>
                        (servePage M cursor).map (tagAccount acc) ++ rest) := rfl

theorem fetch_loop_spec_end (M : List RawTx) (aft : Option String)
    (acc : String) (cursor : Option String)
    (hcur : pageAfterCursor M cursor = M.drop M.length) :
    ∀ fuel, M.length - M.length + 1 ≤ fuel →
      fetch_loop M aft acc fuel cursor =
        some (((M.drop M.length).take (M.length - M.length)).map
          (tagAccount acc)) := by
  intro fuel hfuel
  rcases fuel with _ | f
  · exact absurd hfuel (by omega)
  · have hserve : servePage M cursor = [] := by
      rw [servePage, hcur, List.drop_eq_nil_iff.mpr le_rfl]
      rfl
    simp only [fetch_loop_succ, hserve, List.getLast?_nil, Nat.sub_self,
      List.take_zero, List.map_nil]

theorem fetch_loop_spec :
    ∀ (m : Nat) (M : List RawTx) (aft : Option String) (acc : String),
      (∀ r ∈ M, r.id.isSome = true) →
      ((M.map RawTx.id).Nodup) →
      (∀ r ∈ M, r.createdAt.isSome = true) →
      ∀ (k : Nat) (cursor : Option String),
        k ≤ M.length → M.length - k ≤ m →
        pageAfterCursor M cursor = M.drop k →
        ∃ n, k ≤ n ∧ n ≤ M.length ∧ min (k + 100) M.length ≤ n ∧
          (∀ fuel, M.length - k + 1 ≤ fuel →
            fetch_loop M aft acc fuel cursor =
              some (((M.drop k).take (n - k)).map (tagAccount acc))) ∧
          (n = M.length ∨
            (∃ lastr a, aft = some a ∧ a ≠ "" ∧
              M.drop (n - 1) = lastr :: M.drop n ∧
              strLtB (tsStr lastr) a = true) ∨
            (∃ lastr, M.drop (n - 1) = lastr :: M.drop n ∧
              lastr.id = some "")) := by
  intro m
  induction m with
  | zero =>
      intro M aft acc hId hNd hTs k cursor hk hm hcur
      have hkeq : k = M.length := by omega
      subst hkeq
      exact ⟨M.length, le_rfl, le_rfl, min_le_right _ _,
        fetch_loop_spec_end M aft acc cursor hcur, Or.inl rfl⟩
  | succ m ih =>
      intro M aft acc hId hNd hTs k cursor hk hm hcur
      by_cases hempty : M.drop k = []
      · have hkeq : k = M.length := le_antisymm hk (List.drop_eq_nil_iff.mp hempty)
        subst hkeq
        exact ⟨M.length, le_rfl, le_rfl, min_le_right _ _,
          fetch_loop_spec_end M aft acc cursor hcur, Or.inl rfl⟩
      · have hbatchne : (M.drop k).take 100 ≠ [] := by
          intro h
          rcases List.take_eq_nil_iff.mp h with h100 | hnil
          · exact absurd h100 (by omega)
          · exact hempty hnil
        obtain ⟨lastTx, hlast⟩ : ∃ x, ((M.drop k).take 100).getLast? = some x := by
          rcases h : ((M.drop k).take 100).getLast? with _ | x
          · exact absurd (List.getLast?_eq_none_iff.mp h) hbatchne
          · exact ⟨x, rfl⟩
        obtain ⟨batch', hbatch'⟩ := List.getLast?_eq_some_iff.mp hlast
        have hlmem : lastTx ∈ M := by
          refine List.mem_of_mem_drop (l := M) (n := k) ?_
          refine List.mem_of_mem_take (n := 100) ?_
          rw [hbatch']
          exact List.mem_append_right batch' (List.mem_cons_self lastTx [])
        obtain ⟨cid, hcid⟩ := Option.isSome_iff_exists.mp (hId lastTx hlmem)
        obtain ⟨clast, hclast⟩ := Option.isSome_iff_exists.mp (hTs lastTx hlmem)
        have hbl2 : batch'.length + 1 = min 100 (M.length - k) := by
          have := congrArg List.length hbatch'
          simpa [List.length_take, List.length_drop] using this.symm
        have hble : batch'.length + 1 ≤ M.length - k := by
          rw [hbl2]
          exact min_le_right _ _
        have hn0le : k + (batch'.length + 1) ≤ M.length := by omega
        have htake : (M.drop k).take (batch'.length + 1) = batch' ++ [lastTx] := by
          rw [← hbatch']
          apply List.take_eq_take.mpr
          rw [List.length_drop]
          rw [min_eq_left hble, hbl2]
        have hdrop100 : (M.drop k).drop 100 = (M.drop k).drop (batch'.length + 1) := by
          rcases le_total (M.length - k) 100 with hle | hge
          · have e1 : (M.drop k).drop 100 = [] :=
              List.drop_eq_nil_iff.mpr (by rw [List.length_drop]; exact hle)
            have h3 : batch'.length + 1 = M.length - k := by
              rw [hbl2]
              exact min_eq_right hle
            have e2 : (M.drop k).drop (batch'.length + 1) = [] :=
              List.drop_eq_nil_iff.mpr (by rw [List.length_drop]; omega)
            rw [e1, e2]
          · have h3 : batch'.length + 1 = 100 := by
              rw [hbl2]
              exact min_eq_left hge
            rw [h3]
        have hdropsplit : M.drop k =
            (batch' ++ [lastTx]) ++ M.drop (k + (batch'.length + 1)) := by
          rw [← hbatch', ← List.drop_drop, ← hdrop100]
          exact (List.take_append_drop 100 (M.drop k)).symm
        have hMsplit : M =
            (M.take k ++ batch') ++
              lastTx :: M.drop (k + (batch'.length + 1)) := by
          conv_lhs => rw [← List.take_append_drop k M, hdropsplit]
          simp [List.append_assoc]
        have hserve : servePage M cursor = batch' ++ [lastTx] := by
          rw [servePage, hcur, hbatch']
        have hminbound : min (k + 100) M.length ≤ k + (batch'.length + 1) := by
          rcases le_total 100 (M.length - k) with h | h
          · have h1 : batch'.length + 1 = 100 := by
              rw [hbl2]
              exact min_eq_left h
            have h2 : min (k + 100) M.length ≤ k + 100 := min_le_left _ _
            omega
          · have h1 : batch'.length + 1 = M.length - k := by
              rw [hbl2]
              exact min_eq_right h
            have h2 : min (k + 100) M.length ≤ M.length := min_le_right _ _
            omega
        have hstopchar : stopTs aft lastTx = some false ∨
            (∃ a, aft = some a ∧ a ≠ "" ∧ strLtB clast a = true ∧
              stopTs aft lastTx = some true) := by
          rcases aft with _ | a
          · exact Or.inl rfl
          · by_cases ha : a = ""
            · exact Or.inl (by simp [stopTs, ha])
            · rcases hlt : strLtB clast a with _ | _
              · exact Or.inl (by simp [stopTs, ha, hclast, hlt])
              · exact Or.inr ⟨a, rfl, ha, hlt, by simp [stopTs, ha, hclast, hlt]⟩
        rcases hstopchar with hstop | ⟨a, haft, ha, hlt, hstop⟩
        · -- the boundary test passes: the next cursor is consulted
          by_cases hce : cid = ""
          · -- falsy (empty-string) cursor: the loop breaks after this page
            refine ⟨k + (batch'.length + 1), by omega, hn0le, hminbound, ?_,
              Or.inr (Or.inr ⟨lastTx, ?_, ?_⟩)⟩
            · intro fuel hfuel
              rcases fuel with _ | f
              · exact absurd hfuel (by omega)
              · simp only [fetch_loop_succ, hserve, List.getLast?_concat,
                  hstop, hcid, if_pos hce]
                refine congrArg some ?_
                have h6 : k + (batch'.length + 1) - k = batch'.length + 1 := by
                  omega
                rw [h6, htake]
            · have hds2 : M.drop k =
                  batch' ++ (lastTx :: M.drop (k + (batch'.length + 1))) := by
                rw [hdropsplit]
                simp
              have h7 : M.drop (k + batch'.length) =
                  lastTx :: M.drop (k + (batch'.length + 1)) := by
                rw [← List.drop_drop, hds2, List.drop_left' rfl]
              have h8 : k + (batch'.length + 1) - 1 = k + batch'.length := by
                omega
              rw [h8, h7]
            · rw [hcid, hce]
          · -- truthy cursor: the loop continues on the next page
            have hpre : ∀ p ∈ M.take k ++ batch', p.id ≠ some cid := by
              intro p hp hpc
              exact nodup_split_ne M (M.take k ++ batch') _ lastTx hMsplit hNd
                p hp (hpc.trans hcid.symm)
            have hcur' : pageAfterCursor M (some cid) =
                M.drop (k + (batch'.length + 1)) := by
              conv_lhs => rw [hMsplit]
              exact pageAfterCursor_split (M.take k ++ batch') lastTx _ cid
                hcid hpre
            obtain ⟨n, hn1, hn2, hn3, hval, hdisj⟩ :=
              ih M aft acc hId hNd hTs (k + (batch'.length + 1)) (some cid)
                hn0le (by omega) hcur'
            refine ⟨n, by omega, hn2, by omega, ?_, hdisj⟩
            intro fuel hfuel
            rcases fuel with _ | f
            · exact absurd hfuel (by omega)
            · have hrec := hval f (by omega)
              simp only [fetch_loop_succ, hserve, List.getLast?_concat, hstop,
                hcid, if_neg hce, hrec, Option.map_some']
              refine congrArg some ?_
              have hsplitn : (M.drop k).take (n - k) =
                  (batch' ++ [lastTx]) ++
                    (M.drop (k + (batch'.length + 1))).take
                      (n - (k + (batch'.length + 1))) := by
                have h5 : n - k = (batch'.length + 1) +
                    (n - (k + (batch'.length + 1))) := by omega
                rw [h5, List.take_add, htake, List.drop_drop]
              rw [hsplitn]
              simp [List.map_append]
        · -- the page crossed below the after bound: the loop stops here
          refine ⟨k + (batch'.length + 1), by omega, hn0le, hminbound, ?_,
            Or.inr (Or.inl ⟨lastTx, a, haft, ha, ?_, ?_⟩)⟩
          · intro fuel hfuel
            rcases fuel with _ | f
            · exact absurd hfuel (by omega)
            · simp only [fetch_loop_succ, hserve, List.getLast?_concat, hstop]
              refine congrArg some ?_
              have h6 : k + (batch'.length + 1) - k = batch'.length + 1 := by
                omega
              rw [h6, htake]
          · have hds2 : M.drop k =
                batch' ++ (lastTx :: M.drop (k + (batch'.length + 1))) := by
              rw [hdropsplit]
              simp
            have h7 : M.drop (k + batch'.length) =
                lastTx :: M.drop (k + (batch'.length + 1)) := by
              rw [← List.drop_drop, hds2, List.drop_left' rfl]
            have h8 : k + (batch'.length + 1) - 1 = k + batch'.length := by
              omega
            rw [h8, h7]
          · rw [tsStr, hclast]
            exact hlt

theorem strLtB_irrefl (a : String) : strLtB a a = false :=
  strLeB_strLtB_false a a (strLeB_refl a)

theorem fetch_all_spec (M : List RawTx) (aft : Option String) (acc : String)
    (hId : ∀ r ∈ M, r.id.isSome = true)
    (hNd : (M.map RawTx.id).Nodup)
    (hTs : ∀ r ∈ M, r.createdAt.isSome = true) :
    ∃ n, n ≤ M.length ∧ min 100 M.length ≤ n ∧
      (∀ fuel, M.length + 1 ≤ fuel →
        fetch_loop M aft acc fuel none =
          some ((M.take n).map (tagAccount acc))) ∧
      fetch_all_tx_for_account M aft acc =
        some ((M.take n).map (tagAccount acc)) ∧
      (n = M.length ∨
        (∃ lastr a, aft = some a ∧ a ≠ "" ∧
          M.drop (n - 1) = lastr :: M.drop n ∧
          strLtB (tsStr lastr) a = true) ∨
        (∃ lastr, M.drop (n - 1) = lastr :: M.drop n ∧
          lastr.id = some "")) := by
  obtain ⟨n, _, hn2, hn3, hval, hdisj⟩ :=
    fetch_loop_spec M.length M aft acc hId hNd hTs 0 none (by omega) (by omega)
      rfl
  have hval' : ∀ fuel, M.length + 1 ≤ fuel →
      fetch_loop M aft acc fuel none =
        some ((M.take n).map (tagAccount acc)) := by
    intro fuel hf
    have := hval fuel (by omega)
    simpa using this
  exact ⟨n, hn2, by simpa using hn3, hval',
    hval' (M.length + 1) le_rfl, hdisj⟩

/-- C2 counterexample to the claim as stated: a synthetic upstream source
serving two records in reverse-chronological order in one page, walked with
after = "2". The page crosses the bound, the whole page has already been
collected before the boundary test fires, and the result contains the
record with createdAt "1" < "2" - a record outside the requested bound. -/
theorem fetch_includes_below_bound_cx :
    fetch_all_tx_for_account
        [{ id := some "a", createdAt := some "3" },
         { id := some "b", createdAt := some "1" }]
        (some "2") "acc" =
      some [{ id := some "a", createdAt := some "3", account_id := some "acc" },
            { id := some "b", createdAt := some "1", account_id := some "acc" }] ∧
    strLtB "1" "2" = true := by
  decide

/-- C2 (amended). Against an upstream source serving a finite
reverse-chronological list M in cursor-linked pages of 100 whose records
carry truthy (present and non-empty) ids - the loop stops on a falsy next
cursor, so an id-less or empty-string-id record would end the walk - the
fetch terminates (its value is stable for every fuel beyond the source
length) and returns the account-tagged records of a prefix of M that (i)
spans at least the first page, (ii) carries pairwise-distinct ids (no
duplicates), and (iii) contains every record with created_at >= after;
every record left out is strictly below a truthy after bound. The
below-bound tail of the one boundary-crossing page is collected along with
the in-bound records, so the result can properly exceed the >= after set
(see the counterexample). -/
theorem fetch_pagination_characterized (M : List RawTx) (aft : Option String)
    (acc : String)
    (hId : ∀ r ∈ M, truthyStr r.id = true)
    (hNd : (M.map RawTx.id).Nodup)
    (hTs : ∀ r ∈ M, r.createdAt.isSome = true)
    (hSorted : sortedDescB M) :
    ∃ n, n ≤ M.length ∧ min 100 M.length ≤ n ∧
      fetch_all_tx_for_account M aft acc =
        some ((M.take n).map (tagAccount acc)) ∧
      (∀ fuel, M.length + 1 ≤ fuel →
        fetch_loop M aft acc fuel none =
          some ((M.take n).map (tagAccount acc))) ∧
      ((M.take n).map RawTx.id).Nodup ∧
      (∀ r ∈ M, (∀ a, aft = some a → a ≠ "" → strLeB a (tsStr r) = true) →
        r ∈ M.take n) ∧
      (∀ r ∈ M.drop n, ∃ a, aft = some a ∧ a ≠ "" ∧
        strLtB (tsStr r) a = true) := by
  have hId' : ∀ r ∈ M, r.id.isSome = true :=
    fun r hr => truthyStr_isSome _ (hId r hr)
  obtain ⟨n, hn1, hn2, hval, hfa, hdisj⟩ :=
    fetch_all_spec M aft acc hId' hNd hTs
  have hdropbelow : ∀ r ∈ M.drop n, ∃ a, aft = some a ∧ a ≠ "" ∧
      strLtB (tsStr r) a = true := by
    rcases hdisj with hn | ⟨lastr, a, haft, ha, hdropped, hlast_lt⟩ |
      ⟨lastr, hdropped, hlid⟩
    · intro r hr
      rw [hn, List.drop_eq_nil_iff.mpr le_rfl] at hr
      cases hr
    · intro r hr
      refine ⟨a, haft, ha, ?_⟩
      have hsub : List.Sublist (M.drop (n - 1)) M := List.drop_sublist _ _
      have hpw : (M.drop (n - 1)).Pairwise
          (fun x y => strLeB (tsStr y) (tsStr x) = true) :=
        hSorted.sublist hsub
      rw [hdropped] at hpw
      have hle : strLeB (tsStr r) (tsStr lastr) = true :=
        (List.pairwise_cons.mp hpw).1 r hr
      exact strLtB_of_le_of_lt _ _ _ hle hlast_lt
    · -- an empty-string id cannot end the walk: ids are truthy
      intro r hr
      exfalso
      have hmem : lastr ∈ M := by
        have h0 : lastr ∈ M.drop (n - 1) := by
          rw [hdropped]
          exact List.mem_cons_self _ _
        exact List.mem_of_mem_drop h0
      have htr := hId lastr hmem
      rw [hlid] at htr
      exact absurd htr (by decide)
  refine ⟨n, hn1, hn2, hfa, hval, ?_, ?_, hdropbelow⟩
  · have h1 : (M.take n).map RawTx.id = (M.map RawTx.id).take n :=
      List.map_take RawTx.id M n
    rw [h1]
    exact hNd.sublist (List.take_sublist n _)
  · intro r hr hge
    rcases List.mem_append.mp
        (show r ∈ M.take n ++ M.drop n by
          rw [List.take_append_drop]
          exact hr) with
      h | h
    · exact h
    · obtain ⟨a, haft, ha, hlt⟩ := hdropbelow r h
      have hlea : strLeB a (tsStr r) = true := hge a haft ha
      have : strLtB a a = true := strLtB_of_le_of_lt _ _ _ hlea hlt
      rw [strLtB_irrefl a] at this
      cases this

theorem fetch_pagination_characterized_witness :
    ((∀ r ∈ ([{ id := some "a", createdAt := some "3" },
               { id := some "b", createdAt := some "1" }] : List RawTx),
        truthyStr r.id = true) ∧
      (([{ id := some "a", createdAt := some "3" },
          { id := some "b", createdAt := some "1" }] : List RawTx).map
          RawTx.id).Nodup ∧
      (∀ r ∈ ([{ id := some "a", createdAt := some "3" },
               { id := some "b", createdAt := some "1" }] : List RawTx),
        r.createdAt.isSome = true) ∧
      sortedDescB [{ id := some "a", createdAt := some "3" },
                   { id := some "b", createdAt := some "1" }]) ∧
    (∃ n,
      n ≤ ([{ id := some "a", createdAt := some "3" },
            { id := some "b", createdAt := some "1" }] : List RawTx).length ∧
      min 100 ([{ id := some "a", createdAt := some "3" },
                { id := some "b", createdAt := some "1" }] : List RawTx).length ≤ n ∧
      fetch_all_tx_for_account
          [{ id := some "a", createdAt := some "3" },
           { id := some "b", createdAt := some "1" }] (some "2") "acc" =
        some ((([{ id := some "a", createdAt := some "3" },
                  { id := some "b", createdAt := some "1" }] : List RawTx).take
            n).map (tagAccount "acc")) ∧
      (∀ fuel,
        ([{ id := some "a", createdAt := some "3" },
          { id := some "b", createdAt := some "1" }] : List RawTx).length + 1 ≤
            fuel →
        fetch_loop [{ id := some "a", createdAt := some "3" },
                    { id := some "b", createdAt := some "1" }] (some "2") "acc"
            fuel none =
          some ((([{ id := some "a", createdAt := some "3" },
                    { id := some "b", createdAt := some "1" }] : List RawTx).take
              n).map (tagAccount "acc"))) ∧
      ((([{ id := some "a", createdAt := some "3" },
          { id := some "b", createdAt := some "1" }] : List RawTx).take n).map
          RawTx.id).Nodup ∧
      (∀ r ∈ ([{ id := some "a", createdAt := some "3" },
               { id := some "b", createdAt := some "1" }] : List RawTx),
        (∀ a, (some "2" : Option String) = some a → a ≠ "" →
          strLeB a (tsStr r) = true) →
        r ∈ ([{ id := some "a", createdAt := some "3" },
              { id := some "b", createdAt := some "1" }] : List RawTx).take n) ∧
      (∀ r ∈ ([{ id := some "a", createdAt := some "3" },
               { id := some "b", createdAt := some "1" }] : List RawTx).drop n,
        ∃ a, (some "2" : Option String) = some a ∧ a ≠ "" ∧
          strLtB (tsStr r) a = true)) :=
  ⟨⟨by decide, by decide, by decide, by decide⟩,
    fetch_pagination_characterized
      [{ id := some "a", createdAt := some "3" },
       { id := some "b", createdAt := some "1" }]
      (some "2") "acc" (by decide) (by decide) (by decide) (by decide)⟩

/-! ## Store well-formedness and upsert preservation (C5) -/

/-- The store invariant every store built by the sync engine enjoys: every
row carries an id and ids are pairwise distinct. -/
def wfStore (s : List Row) : Prop :=
  (∀ r ∈ s, r.id.isSome = true) ∧ (s.map Row.id).Nodup

instance : DecidablePred wfStore := fun s =>
  inferInstanceAs
    (Decidable ((∀ r ∈ s, r.id.isSome = true) ∧ (s.map Row.id).Nodup))

theorem mem_upsert_one_of_ne (s : List Row) (q r : Row) (hq : q ∈ s)
    (hne : q.id ≠ r.id) : q ∈ upsert_one s r := by
  rcases h : r.id with _ | i
  · rw [upsert_one, h]
    exact List.mem_append_left _ hq
  · rw [upsert_one_some s r i h]
    refine List.mem_append_left _ (List.mem_filter.mpr ⟨hq, ?_⟩)
    exact decide_eq_true (fun hc => hne (hc.trans h.symm))

theorem mem_upsert_one_self (s : List Row) (r : Row) : r ∈ upsert_one s r := by
  rcases h : r.id with _ | i
  · rw [upsert_one, h]
    exact List.mem_append_right _ (List.mem_cons_self r [])
  · rw [upsert_one_some s r i h]
    exact List.mem_append_right _ (List.mem_cons_self r [])

theorem mem_upsert_batch_of_disjoint :
    ∀ (batch : List Row) (s : List Row) (q : Row), q ∈ s →
      (∀ b ∈ batch, b.id ≠ q.id) → q ∈ upsert_transactions s batch := by
  intro batch
  induction batch with
  | nil => intro s q hq _; exact hq
  | cons b rest ih =>
      intro s q hq hdis
      have h1 : q ∈ upsert_one s b :=
        mem_upsert_one_of_ne s q b hq
          (fun h => hdis b (List.mem_cons_self b rest) h.symm)
      exact ih (upsert_one s b) q h1
        (fun b' hb' => hdis b' (List.mem_cons_of_mem b hb'))

theorem mem_upsert_batch_self :
    ∀ (batch : List Row) (s : List Row) (r : Row), r ∈ batch →
      (batch.map Row.id).Nodup → r ∈ upsert_transactions s batch := by
  intro batch
  induction batch with
  | nil => intro s r hr; cases hr
  | cons b rest ih =>
      intro s r hr hnd
      have hnd1 : (∀ x ∈ rest, ¬ x.id = b.id) ∧ (rest.map Row.id).Nodup := by
        simpa using hnd
      rcases List.mem_cons.mp hr with rfl | hr'
      · exact mem_upsert_batch_of_disjoint rest (upsert_one s r) r
          (mem_upsert_one_self s r)
          (fun b' hb' hbe => hnd1.1 b' hb' hbe)
      · exact ih (upsert_one s b) r hr' hnd1.2

theorem upsert_one_wf (s : List Row) (r : Row) (hwf : wfStore s)
    (hr : r.id.isSome = true) : wfStore (upsert_one s r) := by
  obtain ⟨i, hi⟩ := Option.isSome_iff_exists.mp hr
  rw [upsert_one_some s r i hi]
  constructor
  · intro q hq
    rcases List.mem_append.mp hq with h | h
    · exact hwf.1 q (List.mem_filter.mp h).1
    · have : q = r := by simpa using h
      rw [this]
      exact hr
  · rw [List.map_append]
    refine List.nodup_append.mpr ⟨?_, by simp, ?_⟩
    · exact hwf.2.sublist ((List.filter_sublist s).map Row.id)
    · intro x hx hx2
      obtain ⟨q, hq, hqx⟩ := List.mem_map.mp hx
      have hqne : q.id ≠ some i := of_decide_eq_true (List.mem_filter.mp hq).2
      have hxi : x = some i := by
        have : x = r.id := by simpa using hx2
        rw [this, hi]
      exact hqne (hqx ▸ hxi ▸ rfl)

theorem upsert_transactions_wf :
    ∀ (batch : List Row) (s : List Row), wfStore s →
      (∀ b ∈ batch, b.id.isSome = true) →
      wfStore (upsert_transactions s batch) := by
  intro batch
  induction batch with
  | nil => intro s hwf _; exact hwf
  | cons b rest ih =>
      intro s hwf hb
      exact ih (upsert_one s b)
        (upsert_one_wf s b hwf (hb b (List.mem_cons_self b rest)))
        (fun b' hb' => hb b' (List.mem_cons_of_mem b hb'))

theorem upsert_one_mem_preserve (s : List Row) (r : Row) (hwf : wfStore s)
    (hr : r ∈ s) :
    (upsert_one s r).toFinset = s.toFinset ∧
    (upsert_one s r).length = s.length := by
  obtain ⟨i, hi⟩ := Option.isSome_iff_exists.mp (hwf.1 r hr)
  obtain ⟨s1, s2, hs⟩ := List.append_of_mem hr
  have hnd : ((s1 ++ r :: s2).map Row.id).Nodup := hs ▸ hwf.2
  rw [List.map_append, List.map_cons] at hnd
  obtain ⟨hnd1, hndc, hdisj⟩ := List.nodup_append.mp hnd
  obtain ⟨hnotin2, hnd2⟩ := List.nodup_cons.mp hndc
  have hf1 : s1.filter (fun q => decide (q.id ≠ some i)) = s1 := by
    apply List.filter_eq_self.mpr
    intro q hq
    refine decide_eq_true (fun hqi => ?_)
    refine hdisj (List.mem_map_of_mem Row.id hq) ?_
    rw [hqi, ← hi]
    exact List.mem_cons_self _ _
  have hf2 : s2.filter (fun q => decide (q.id ≠ some i)) = s2 := by
    apply List.filter_eq_self.mpr
    intro q hq
    refine decide_eq_true (fun hqi => ?_)
    refine hnotin2 ?_
    rw [hi, ← hqi]
    exact List.mem_map_of_mem Row.id hq
  have hfr : (r :: s2).filter (fun q => decide (q.id ≠ some i)) = s2 := by
    rw [List.filter_cons]
    rw [decide_eq_false (by simp [hi] : ¬ r.id ≠ some i)]
    simpa using hf2
  have hkey : upsert_one s r = (s1 ++ s2) ++ [r] := by
    rw [upsert_one_some s r i hi, hs, List.filter_append, hf1, hfr]
  constructor
  · rw [hkey, hs]
    ext x
    simp only [List.mem_toFinset, List.mem_append, List.mem_cons,
      List.not_mem_nil, or_false]
    tauto
  · rw [hkey, hs]
    simp

theorem upsert_batch_mem_preserve :
    ∀ (batch : List Row) (s : List Row), wfStore s →
      (∀ b ∈ batch, b ∈ s) →
      (upsert_transactions s batch).toFinset = s.toFinset ∧
      (upsert_transactions s batch).length = s.length ∧
      wfStore (upsert_transactions s batch) := by
  intro batch
  induction batch with
  | nil => intro s hwf _; exact ⟨rfl, rfl, hwf⟩
  | cons b rest ih =>
      intro s hwf hb
      have hbs : b ∈ s := hb b (List.mem_cons_self b rest)
      have h1 := upsert_one_mem_preserve s b hwf hbs
      have hwf1 : wfStore (upsert_one s b) :=
        upsert_one_wf s b hwf (hwf.1 b hbs)
      have hb1 : ∀ b' ∈ rest, b' ∈ upsert_one s b := by
        intro b' hb'
        have : b' ∈ (upsert_one s b).toFinset := by
          rw [h1.1]
          exact List.mem_toFinset.mpr (hb b' (List.mem_cons_of_mem b hb'))
        exact List.mem_toFinset.mp this
      obtain ⟨hA, hB, hC⟩ := ih (upsert_one s b) hwf1 hb1
      exact ⟨hA.trans h1.1, hB.trans h1.2, hC⟩

theorem foldl_maxStep_ub :
    ∀ (l : List Row) (acc : Option String) (w : String),
      l.foldl maxStep acc = some w →
      (∀ m, acc = some m → strLeB m w = true) ∧
      (∀ r ∈ l, ∀ c, r.createdAt = some c → strLeB c w = true) := by
  intro l
  induction l with
  | nil =>
      intro acc w h
      refine ⟨fun m hm => ?_, fun r hr => absurd hr (List.not_mem_nil r)⟩
      rw [hm] at h
      rw [Option.some.inj h]
      exact strLeB_refl w
  | cons r rest ih =>
      intro acc w h
      rw [List.foldl_cons] at h
      obtain ⟨hacc', hrest⟩ := ih (maxStep acc r) w h
      constructor
      · intro m hm
        rcases hts : r.createdAt with _ | c
        · exact hacc' m (by rw [← hm, maxStep_ts_none acc r hts])
        · have hmx : strLeB (strMaxB m c) w = true :=
            hacc' (strMaxB m c) (by rw [hm, maxStep_ts_some_some m r c hts])
          exact strLeB_trans m (strMaxB m c) w (strLeB_strMaxB_left m c) hmx
      · intro q hq c hc
        rcases List.mem_cons.mp hq with rfl | hq'
        · rcases ha : acc with _ | m
          · exact hacc' c (by rw [ha]; exact maxStep_ts_some_none q c hc)
          · have hmx : strLeB (strMaxB m c) w = true :=
              hacc' (strMaxB m c) (by rw [ha, maxStep_ts_some_some m q c hc])
            exact strLeB_trans c (strMaxB m c) w (strLeB_strMaxB_right m c) hmx
        · exact hrest q hq' c hc

theorem get_max_ub (s : List Row) (w : String)
    (h : get_max_createdAt s = some w) :
    ∀ r ∈ s, ∀ c, r.createdAt = some c → strLeB c w = true :=
  (foldl_maxStep_ub s none w h).2

theorem get_max_isSome_of_mem (s : List Row) (r : Row) (hr : r ∈ s)
    (c : String) (hc : r.createdAt = some c) :
    ∃ w, get_max_createdAt s = some w := by
  rcases h : get_max_createdAt s with _ | w
  · rw [get_max_createdAt] at h
    have := (foldl_maxStep_none s none).mp h
    rw [this.2 r hr] at hc
    cases hc
  · exact ⟨w, rfl⟩

theorem truthyStr_exists (o : Option String) (h : truthyStr o = true) :
    ∃ c, o = some c ∧ c ≠ "" := by
  rcases o with _ | s
  · cases h
  · rw [truthyStr] at h
    exact ⟨s, rfl, of_decide_eq_true h⟩

theorem fetch_all_nil (aft : Option String) (acc : String) :
    fetch_all_tx_for_account [] aft acc = some [] := rfl

/-- When the watermark is at or above every timestamp of a strictly
reverse-chronological source, the fetch collects exactly the first page:
the page is appended whole, the boundary test fires on its last record (or
the cursor walk immediately exhausts a singleton source). -/
theorem fetch_all_high (M : List RawTx) (acc : String) (w : String)
    (hId : ∀ r ∈ M, r.id.isSome = true)
    (hTs : ∀ r ∈ M, r.createdAt.isSome = true)
    (hSorted : sortedStrictDescB M)
    (hw : w ≠ "")
    (hbound : ∀ r ∈ M, strLeB (tsStr r) w = true) :
    fetch_all_tx_for_account M (some w) acc =
      some ((M.take 100).map (tagAccount acc)) := by
  rcases M with _ | ⟨x, rest⟩
  · rfl
  · obtain ⟨cx, hcx⟩ := Option.isSome_iff_exists.mp
      (hId x (List.mem_cons_self x rest))
    obtain ⟨tx0, htx0⟩ := Option.isSome_iff_exists.mp
      (hTs x (List.mem_cons_self x rest))
    have hserve : servePage (x :: rest) none = x :: rest.take 99 := by
      rw [servePage]
      rfl
    rcases hrest : rest.take 99 with _ | ⟨y, ys⟩
    · -- the first page is the singleton head
      have hrestnil : rest = [] := by
        rcases List.take_eq_nil_iff.mp hrest with h99 | h
        · exact absurd h99 (by omega)
        · exact h
      subst hrestnil
      have hstop : stopTs (some w) x = some (strLtB tx0 w) := by
        simp [stopTs, hw, htx0]
      rcases hlt : strLtB tx0 w with _ | _
      · -- equal timestamps: the cursor is consulted; a falsy cursor breaks
        -- with the page already collected, a truthy one walks one more
        -- (empty) page - either way the singleton page is the result
        show fetch_loop [x] (some w) acc 2 none = _
        by_cases hcxe : cx = ""
        · simp only [fetch_loop_succ, hserve, hrest, List.getLast?_singleton,
            hstop, hlt, hcx, if_pos hcxe]
          rfl
        · have hcur' : pageAfterCursor [x] (some cx) = [] :=
            pageAfterCursor_split [] x [] cx hcx (by intro p hp; cases hp)
          have hserve' : servePage [x] (some cx) = [] := by
            rw [servePage, hcur']
            rfl
          simp only [fetch_loop_succ, hserve, hrest, List.getLast?_singleton,
            hstop, hlt, hcx, if_neg hcxe, hserve', List.getLast?_nil]
          rfl
      · show fetch_loop [x] (some w) acc 2 none = _
        simp only [fetch_loop_succ, hserve, hrest, List.getLast?_singleton,
          hstop, hlt]
        rfl
    · -- the first page has at least two records; its last is strictly
      -- below the head timestamp, hence strictly below the watermark
      obtain ⟨lastTx, hlast⟩ :
          ∃ z, ((x :: rest.take 99) : List RawTx).getLast? = some z := by
        rcases h : ((x :: rest.take 99) : List RawTx).getLast? with _ | z
        · exact absurd (List.getLast?_eq_none_iff.mp h) (by simp)
        · exact ⟨z, rfl⟩
      obtain ⟨batch', hbatch'⟩ := List.getLast?_eq_some_iff.mp hlast
      have hlastmem : lastTx ∈ rest := by
        have h1 : lastTx ∈ x :: rest.take 99 := by
          rw [hbatch']
          exact List.mem_append_right batch' (List.mem_cons_self lastTx [])
        rcases List.mem_cons.mp h1 with rfl | h2
        · exfalso
          have hxlast : batch' = [] ∨ lastTx ∈ rest.take 99 := by
            rcases batch' with _ | ⟨b0, bs⟩
            · exact Or.inl rfl
            · right
              have : bs ++ [lastTx] = rest.take 99 := by
                have := hbatch'
                rw [List.cons_append] at this
                exact (List.cons.inj this).2.symm
              rw [← this]
              exact List.mem_append_right bs (List.mem_cons_self lastTx [])
          rcases hxlast with hb | hb
          · rw [hb] at hbatch'
            have : rest.take 99 = [] := by
              simpa using (List.cons.inj hbatch').2
            rw [this] at hrest
            cases hrest
          · have hmem : lastTx ∈ rest := List.mem_of_mem_take hb
            have hpw := List.pairwise_cons.mp hSorted
            have := hpw.1 lastTx hmem
            rw [strLtB_irrefl] at this
            cases this
        · exact List.mem_of_mem_take h2
      obtain ⟨clast, hclast⟩ := Option.isSome_iff_exists.mp
        (hTs lastTx (List.mem_cons_of_mem x hlastmem))
      have hltlast : strLtB clast w = true := by
        have hpw := List.pairwise_cons.mp hSorted
        have h1 : strLtB (tsStr lastTx) (tsStr x) = true := hpw.1 lastTx hlastmem
        have h2 : strLeB (tsStr x) w = true :=
          hbound x (List.mem_cons_self x rest)
        have := strLtB_of_lt_of_le _ _ _ h1 h2
        rw [tsStr, hclast] at this
        exact this
      have hstop : stopTs (some w) lastTx = some true := by
        simp [stopTs, hw, hclast, hltlast]
      have hlast' : ((x : RawTx) :: y :: ys).getLast? = some lastTx := by
        rw [← hrest]
        exact hlast
      show fetch_loop (x :: rest) (some w) acc ((x :: rest).length + 1) none = _
      simp only [fetch_loop_succ, hserve, hrest, hlast', hstop]
      rw [show ((x :: rest : List RawTx)).take 100 = x :: rest.take 99 from rfl,
        hrest]

/-- The sync normalization ignores the account tag written by the
pagination loop. -/
theorem normalize_tag (a : String) (r : RawTx) :
    normalize_tx a (tagAccount a r) = normalize_tx a r := rfl

/-- First incremental run: the per-account upserts succeed, preserve store
well-formedness, keep every pre-existing row whose id no upstream record
carries, and leave the normalized form of every first-page record in the
resulting store. -/
theorem incremental_fold_run1 :
    ∀ (U : List (String × List RawTx)) (aft : Option String) (s : List Row),
      (∀ p ∈ U, ∀ r ∈ p.2, r.id.isSome = true) →
      (((U.map Prod.snd).join).map RawTx.id).Nodup →
      (∀ p ∈ U, ∀ r ∈ p.2, r.createdAt.isSome = true) →
      wfStore s →
      ∃ s', (U.foldlM (fun st p =>
          (fetch_all_tx_for_account p.2 aft p.1).map
            (fun txs => upsert_transactions st (txs.map (normalize_tx p.1))))
          s) = some s' ∧
        wfStore s' ∧
        (∀ q ∈ s, (∀ p ∈ U, ∀ r ∈ p.2, r.id ≠ q.id) → q ∈ s') ∧
        (∀ p ∈ U, ∀ x ∈ p.2.take 100, normalize_tx p.1 x ∈ s') := by
  intro U
  induction U with
  | nil =>
      intro aft s _ _ _ hwf
      exact ⟨s, rfl, hwf, fun q hq _ => hq, fun p hp => absurd hp (by simp)⟩
  | cons p rest ih =>
      intro aft s hU hG hTs hwf
      have hGsplit : ((p.2.map RawTx.id).Nodup ∧
          (((rest.map Prod.snd).join).map RawTx.id).Nodup ∧
          (p.2.map RawTx.id).Disjoint
            (((rest.map Prod.snd).join).map RawTx.id)) := by
        have h1 : ((p :: rest).map Prod.snd).join =
            p.2 ++ (rest.map Prod.snd).join := by
          simp
        rw [h1, List.map_append] at hG
        exact List.nodup_append.mp hG
      have hpId : ∀ r ∈ p.2, r.id.isSome = true :=
        hU p (List.mem_cons_self p rest)
      have hpTs : ∀ r ∈ p.2, r.createdAt.isSome = true :=
        hTs p (List.mem_cons_self p rest)
      obtain ⟨n, hn1, hn2, _, hfa, _⟩ :=
        fetch_all_spec p.2 aft p.1 hpId hGsplit.1 hpTs
      have hstep : (fetch_all_tx_for_account p.2 aft p.1).map
          (fun txs => upsert_transactions s (txs.map (normalize_tx p.1))) =
          some (upsert_transactions s
            (((p.2.take n).map (tagAccount p.1)).map (normalize_tx p.1))) := by
        rw [hfa]
        rfl
      have hbatchid : ∀ b ∈ ((p.2.take n).map (tagAccount p.1)).map
          (normalize_tx p.1), b.id.isSome = true := by
        intro b hb
        obtain ⟨t, ht, hbt⟩ := List.mem_map.mp hb
        obtain ⟨x, hx, htx⟩ := List.mem_map.mp ht
        have hxm : x ∈ p.2 := List.mem_of_mem_take hx
        rw [← hbt, ← htx]
        exact hpId x hxm
      have hwf1 : wfStore (upsert_transactions s
          (((p.2.take n).map (tagAccount p.1)).map (normalize_tx p.1))) :=
        upsert_transactions_wf _ s hwf hbatchid
      obtain ⟨s', hval, hwf', hpres, htake⟩ :=
        ih aft (upsert_transactions s
          (((p.2.take n).map (tagAccount p.1)).map (normalize_tx p.1)))
          (fun q hq => hU q (List.mem_cons_of_mem p hq))
          hGsplit.2.1
          (fun q hq => hTs q (List.mem_cons_of_mem p hq))
          hwf1
      have hbatchmap : ∀ x ∈ p.2.take n,
          normalize_tx p.1 x ∈
            ((p.2.take n).map (tagAccount p.1)).map (normalize_tx p.1) := by
        intro x hx
        rw [← normalize_tag p.1 x]
        exact List.mem_map_of_mem _ (List.mem_map_of_mem _ hx)
      have hbatchnd : ((((p.2.take n).map (tagAccount p.1)).map
          (normalize_tx p.1)).map Row.id).Nodup := by
        have h1 : (((p.2.take n).map (tagAccount p.1)).map
            (normalize_tx p.1)).map Row.id = (p.2.map RawTx.id).take n := by
          rw [← List.map_take]
          rw [List.map_map, List.map_map]
          rfl
        rw [h1]
        exact hGsplit.1.sublist (List.take_sublist n _)
      refine ⟨s', ?_, hwf', ?_, ?_⟩
      · show ((fetch_all_tx_for_account p.2 aft p.1).map
            (fun txs => upsert_transactions s (txs.map (normalize_tx p.1)))
            >>= fun st =>
              rest.foldlM (fun st p =>
                (fetch_all_tx_for_account p.2 aft p.1).map
                  (fun txs => upsert_transactions st
                    (txs.map (normalize_tx p.1)))) st) = some s'
        rw [hstep]
        exact hval
      · intro q hq hdisq
        refine hpres q ?_ (fun p' hp' => hdisq p' (List.mem_cons_of_mem p hp'))
        refine mem_upsert_batch_of_disjoint _ s q hq ?_
        intro b hb
        obtain ⟨t, ht, hbt⟩ := List.mem_map.mp hb
        obtain ⟨x, hx, htx⟩ := List.mem_map.mp ht
        have : b.id = x.id := by
          rw [← hbt, ← htx]
          rfl
        rw [this]
        exact hdisq p (List.mem_cons_self p rest) x (List.mem_of_mem_take hx)
      · intro p' hp' x hx
        rcases List.mem_cons.mp hp' with rfl | hp''
        · -- the current account: its first-page rows enter the store now
          -- and survive the remaining accounts
          have hxn : x ∈ p'.2.take n := by
            have h100 : p'.2.take 100 = (p'.2.take n).take 100 := by
              rw [List.take_take]
              apply List.take_eq_take.mpr
              omega
            rw [h100] at hx
            exact List.mem_of_mem_take hx
          have hin1 : normalize_tx p'.1 x ∈ upsert_transactions s
              (((p'.2.take n).map (tagAccount p'.1)).map (normalize_tx p'.1)) :=
            mem_upsert_batch_self _ s _ (hbatchmap x hxn) hbatchnd
          refine hpres _ hin1 ?_
          intro p'' hp'' r hr hre
          have hxid : (normalize_tx p'.1 x).id = x.id := rfl
          rw [hxid] at hre
          have hm1 : x.id ∈ p'.2.map RawTx.id :=
            List.mem_map_of_mem RawTx.id (List.mem_of_mem_take hxn)
          have hm2 : x.id ∈ ((rest.map Prod.snd).join).map RawTx.id := by
            rw [← hre]
            refine List.mem_map_of_mem RawTx.id ?_
            rw [List.mem_join]
            exact ⟨p''.2, List.mem_map_of_mem Prod.snd hp'', hr⟩
          exact hGsplit.2.2 hm1 hm2
        · exact htake p' hp'' x hx

/-- Second incremental run: when every account fetch returns exactly its
first page and every normalized first-page row is already present in the
(well-formed) store, the fold only replaces rows with themselves - the row
set and the row count are unchanged. -/
theorem incremental_fold_run2 :
    ∀ (U : List (String × List RawTx)) (aft : Option String) (st : List Row)
      (base : Finset Row),
      (∀ p ∈ U, fetch_all_tx_for_account p.2 aft p.1 =
        some ((p.2.take 100).map (tagAccount p.1))) →
      (∀ p ∈ U, ∀ x ∈ p.2.take 100, normalize_tx p.1 x ∈ base) →
      wfStore st → st.toFinset = base →
      ∃ s', (U.foldlM (fun st p =>
          (fetch_all_tx_for_account p.2 aft p.1).map
            (fun txs => upsert_transactions st (txs.map (normalize_tx p.1))))
          st) = some s' ∧
        s'.toFinset = base ∧ s'.length = st.length ∧ wfStore s' := by
  intro U
  induction U with
  | nil =>
      intro aft st base _ _ hwf hbase
      exact ⟨st, rfl, hbase, rfl, hwf⟩
  | cons p rest ih =>
      intro aft st base hfetch hmem hwf hbase
      have hstep : (fetch_all_tx_for_account p.2 aft p.1).map
          (fun txs => upsert_transactions st (txs.map (normalize_tx p.1))) =
          some (upsert_transactions st
            (((p.2.take 100).map (tagAccount p.1)).map (normalize_tx p.1))) := by
        rw [hfetch p (List.mem_cons_self p rest)]
        rfl
      have hbm : ∀ b ∈ ((p.2.take 100).map (tagAccount p.1)).map
          (normalize_tx p.1), b ∈ st := by
        intro b hb
        obtain ⟨t, ht, hbt⟩ := List.mem_map.mp hb
        obtain ⟨x, hx, htx⟩ := List.mem_map.mp ht
        have : b = normalize_tx p.1 x := by
          rw [← hbt, ← htx]
          exact (normalize_tag p.1 x).symm ▸ rfl
        rw [this]
        have hbase' : normalize_tx p.1 x ∈ base :=
          hmem p (List.mem_cons_self p rest) x hx
        rw [← hbase] at hbase'
        exact List.mem_toFinset.mp hbase'
      obtain ⟨hset, hlen, hwf2⟩ := upsert_batch_mem_preserve _ st hwf hbm
      obtain ⟨s', hval, hs1, hs2, hs3⟩ :=
        ih aft (upsert_transactions st
            (((p.2.take 100).map (tagAccount p.1)).map (normalize_tx p.1)))
          base
          (fun q hq => hfetch q (List.mem_cons_of_mem p hq))
          (fun q hq => hmem q (List.mem_cons_of_mem p hq))
          hwf2 (hset.trans hbase)
      refine ⟨s', ?_, hs1, hs2.trans hlen, hs3⟩
      show ((fetch_all_tx_for_account p.2 aft p.1).map
          (fun txs => upsert_transactions st (txs.map (normalize_tx p.1)))
          >>= fun st' =>
            rest.foldlM (fun st p =>
              (fetch_all_tx_for_account p.2 aft p.1).map
                (fun txs => upsert_transactions st
                  (txs.map (normalize_tx p.1)))) st') = some s'
      rw [hstep]
      exact hval

/-- A synthetic upstream record: id i(k), createdAt "500" (one shared
timestamp for every record). -/
def c5tx (k : Nat) : RawTx :=
  { id := some ("i" ++ toString k), createdAt := some "500" }

/-- One account whose history is 101 records all bearing the same
createdAt, so that the tie spans the 100-record page boundary. -/
def c5U : List (String × List RawTx) := [("acc", (List.range 101).map c5tx)]

/-- A store holding one stale row for the first upstream id, carrying a
watermark above every upstream timestamp. -/
def c5s0 : List Row := [{ id := some "i0", createdAt := some "900" }]

set_option maxRecDepth 100000 in
/-- C5 counterexample: with no upstream change between the two calls, the
first incremental sync leaves 100 rows but the second grows the store to
101 rows. The first run fetches with the stale watermark "900", stops after
one page of 100 tied records and upserts them; the resulting watermark
"500" equals every upstream timestamp, so the second run walks one page
further and inserts the 101st record. -/
theorem incremental_sync_growth_cx :
    (incremental_sync c5U c5s0).map List.length = some 100 ∧
    ((incremental_sync c5U c5s0).bind (incremental_sync c5U)).map
      List.length = some 101 := ⟨rfl, rfl⟩

/-- C5: amended statement. When every upstream record carries an id and a
truthy createdAt, ids are globally distinct, each account history is
strictly reverse-chronological (no timestamp ties), and the store is
well-formed, two consecutive incremental syncs against an unchanged
upstream succeed and the second one inserts nothing: the row set and the
row count are unchanged. -/
theorem incremental_sync_no_growth
    (U : List (String × List RawTx)) (s0 : List Row)
    (hId : ∀ p ∈ U, ∀ r ∈ p.2, r.id.isSome = true)
    (hG : (((U.map Prod.snd).join).map RawTx.id).Nodup)
    (hTs : ∀ p ∈ U, ∀ r ∈ p.2, truthyStr r.createdAt = true)
    (hSort : ∀ p ∈ U, sortedStrictDescB p.2)
    (hwf : wfStore s0) :
    ∃ s1 s2, incremental_sync U s0 = some s1 ∧
      incremental_sync U s1 = some s2 ∧
      s2.toFinset = s1.toFinset ∧ s2.length = s1.length := by
  have hTs' : ∀ p ∈ U, ∀ r ∈ p.2, r.createdAt.isSome = true :=
    fun p hp r hr => truthyStr_isSome _ (hTs p hp r hr)
  obtain ⟨s1, h1val, h1wf, _, h1take⟩ :=
    incremental_fold_run1 U (get_max_createdAt s0) s0 hId hG hTs' hwf
  have h1 : incremental_sync U s0 = some s1 := h1val
  have hfetch2 : ∀ p ∈ U,
      fetch_all_tx_for_account p.2 (get_max_createdAt s1) p.1 =
        some ((p.2.take 100).map (tagAccount p.1)) := by
    intro p hp
    rcases hM : p.2 with _ | ⟨hd, tl⟩
    · rfl
    · have hhd100 : hd ∈ p.2.take 100 := by
        rw [hM]
        rw [show ((hd :: tl : List RawTx)).take 100 = hd :: tl.take 99 from
          rfl]
        exact List.mem_cons_self _ _
      have hmem1 : normalize_tx p.1 hd ∈ s1 := h1take p hp hd hhd100
      obtain ⟨c, hc, hcne⟩ := truthyStr_exists hd.createdAt
        (hTs p hp hd (by rw [hM]; exact List.mem_cons_self _ _))
      have hrowc : (normalize_tx p.1 hd).createdAt = some c := hc
      obtain ⟨w, hw⟩ := get_max_isSome_of_mem s1 _ hmem1 c hrowc
      have hcw : strLeB c w = true := get_max_ub s1 w hw _ hmem1 c hrowc
      have hwne : w ≠ "" := by
        intro he
        rw [he] at hcw
        exact hcne (eq_empty_of_strLeB_empty c hcw)
      have hhdc : tsStr hd = c := by rw [tsStr, hc]; rfl
      have hbound : ∀ r ∈ (hd :: tl), strLeB (tsStr r) w = true := by
        intro r hr
        rcases List.mem_cons.mp hr with rfl | hrt
        · rw [hhdc]
          exact hcw
        · have hsort := hSort p hp
          rw [hM] at hsort
          have hlt : strLtB (tsStr r) (tsStr hd) = true :=
            (List.pairwise_cons.mp hsort).1 r hrt
          rw [hhdc] at hlt
          exact strLeB_trans _ _ _ (strLeB_of_strLtB _ _ hlt) hcw
      have hsorted : sortedStrictDescB (hd :: tl) := by
        have hs := hSort p hp
        rwa [hM] at hs
      have hids : ∀ r ∈ (hd :: tl), r.id.isSome = true := by
        intro r hr
        exact hId p hp r (by rw [hM]; exact hr)
      have htss : ∀ r ∈ (hd :: tl), r.createdAt.isSome = true := by
        intro r hr
        exact hTs' p hp r (by rw [hM]; exact hr)
      rw [hw]
      exact fetch_all_high (hd :: tl) p.1 w hids htss hsorted hwne hbound
  have hmemF : ∀ p ∈ U, ∀ x ∈ p.2.take 100,
      normalize_tx p.1 x ∈ s1.toFinset :=
    fun p hp x hx => List.mem_toFinset.mpr (h1take p hp x hx)
  obtain ⟨s2, h2val, h2set, h2len, _⟩ :=
    incremental_fold_run2 U (get_max_createdAt s1) s1 s1.toFinset
      hfetch2 hmemF h1wf rfl
  exact ⟨s1, s2, h1, h2val, h2set, h2len⟩

/-- A two-record strictly reverse-chronological account history used by the
witness instance. -/
def c5wtx1 : RawTx := { id := some "x", createdAt := some "2" }

/-- Second witness record, strictly older than the first. -/
def c5wtx2 : RawTx := { id := some "y", createdAt := some "1" }

/-- Witness: the amended C5 theorem applied to one account holding two
strictly-descending records over an empty store. -/
theorem incremental_sync_no_growth_witness :
    ∃ s1 s2, incremental_sync [("a", [c5wtx1, c5wtx2])] [] = some s1 ∧
      incremental_sync [("a", [c5wtx1, c5wtx2])] s1 = some s2 ∧
      s2.toFinset = s1.toFinset ∧ s2.length = s1.length :=
  incremental_sync_no_growth [("a", [c5wtx1, c5wtx2])] []
    (by decide) (by decide) (by decide) (by decide) (by decide)

end MercuryBot
